import Mathlib

/-!
Shallow embedding of the channel core in src/chan.c (libdill).

A message is modelled as its byte list (`Msg := List Nat`); `memcpy` of a
whole element becomes copying the list.  The channel structure mirrors
`struct dill_chan`: element size `sz`, ring-buffer capacity `bufsz`, the
ring storage `buf` (a list of `bufsz` slots), occupancy `items`, head
index `first`, the two intrusive waiter lists `inW` (receivers, `ch->in`)
and `outW` (senders, `ch->out`), and the `done` bit.

Collaborators outside src/ are abstracted as in the spec, section 6:
  - dill_canblock is a boolean parameter `cb` (`true` = not shutting down;
    `false` makes the operation fail with ECANCELED, which dill_canblock
    itself writes to errno);
  - hquery/handle table: the environment is a `List Chan`, a handle is an
    index into it; a failed lookup stands for the BADF/NOTSUP failure;
  - dill_trigger: popping the clause from its list plus recording an event
    `Ev` (the clause, the bytes memcpy'ed into its buffer if any, and the
    result code);
  - dill_waitfor: appending the clause to the tail of a waiter list; the
    operation's immediate outcome is then `parked` (the task suspends; the
    value eventually returned by the C function is decided by whichever
    trigger/timer fires later and is outside this single-step model).

Every `% ch->bufsz` executed by the C code is additionally recorded in the
`mods` field of the result, so that absence of a modulo-by-zero (a C
division by zero) is expressible as `0 ∉ mods`.
-/

namespace LibdillChan

/-- Error constants (numeric values as on Linux; only distinctness matters). -/
def EPIPE : Nat := 32

def EINVAL : Nat := 22

def ETIMEDOUT : Nat := 110

def ECANCELED : Nat := 125

def EBADF : Nat := 9

def ENOTSUP : Nat := 95

/-- A message: the byte pattern of one element. -/
abbrev Msg := List Nat

/-- A channel clause (`struct dill_chcl`): the payload pointer.  For a parked
sender `val` is the payload to deliver; for a parked receiver it stands for
the target buffer (its previous contents are never read, so we store `[]`). -/
structure Chcl where
  val : Msg
deriving DecidableEq, Repr

/-- A trigger event: `dill_trigger(cl, code)`, together with the bytes that
were memcpy'ed into the clause's buffer just before the trigger (if any). -/
structure Ev where
  cl : Chcl
  written : Option Msg
  code : Nat
deriving DecidableEq, Repr

/-- The channel state (`struct dill_chan`). -/
structure Chan where
  sz : Nat
  bufsz : Nat
  buf : List Msg
  items : Nat
  first : Nat
  inW : List Chcl
  outW : List Chcl
  done : Bool
deriving DecidableEq, Repr, Inhabited

/-- Immediate outcome of chsend/chrecv/chdone: returned 0, returned -1 (with
the value written to errno, `none` when errno was left untouched), or
suspended after parking on a waiter list. -/
inductive Outcome where
  | ok : Outcome
  | fail (errnoW : Option Nat) : Outcome
  | parked : Outcome
deriving DecidableEq, Repr

/-- Result of one channel operation: outcome, new channel state, trigger
events in order, the message copied into the caller's buffer (recv), and the
divisors of every `% bufsz` the code executed. -/
structure OpRes where
  out : Outcome
  ch : Chan
  evs : List Ev
  recvd : Option Msg
  mods : List Nat
deriving DecidableEq, Repr

/-- Channel creation, src/chan.c lines 79-105 (`channel`): fresh state with
empty waiter lists, empty buffer of `bufsz` slots, `done = 0`.  The malloc'ed
slots are uninitialized in C; they are modelled as zero bytes (they are never
read before being written). -/
def mkChan (itemsz bufsz : Nat) : Chan :=
  { sz := itemsz
    bufsz := bufsz
    buf := List.replicate bufsz (List.replicate itemsz 0)
    items := 0
    first := 0
    inW := []
    outW := []
    done := false }

/-- Shallow embedding of `chsend`, src/chan.c lines 135-173.  `cb` is the
dill_canblock result, `val`/`len`/`deadline` the C arguments; the handle has
already been resolved to `ch` (a failed hquery is a -1 return with the
channel untouched, outside this function). -/
def chsend (cb : Bool) (ch : Chan) (val : Msg) (len : Nat) (deadline : Int) : OpRes :=
  if !cb then ⟨.fail (some ECANCELED), ch, [], none, []⟩
  else if len ≠ ch.sz then
    -- line 142: return -1 with errno left untouched
    ⟨.fail none, ch, [], none, []⟩
  else if ch.done then ⟨.fail (some EPIPE), ch, [], none, []⟩
  else
    match ch.inW with
    | chcl :: rest =>
        -- lines 145-152: copy the message directly to the waiting receiver
        ⟨.ok, { ch with inW := rest }, [⟨chcl, some val, 0⟩], none, []⟩
    | [] =>
        if ch.items < ch.bufsz then
          -- lines 153-159: write the item to the buffer
          ⟨.ok, { ch with buf := ch.buf.set ((ch.first + ch.items) % ch.bufsz) val,
                          items := ch.items + 1 }, [], none, [ch.bufsz]⟩
        else if deadline = 0 then ⟨.fail (some ETIMEDOUT), ch, [], none, []⟩
        else
          -- lines 163-165: park on ch->out
          ⟨.parked, { ch with outW := ch.outW ++ [⟨val⟩] }, [], none, []⟩

/-- Shallow embedding of `chrecv`, src/chan.c lines 175-223. -/
def chrecv (cb : Bool) (ch : Chan) (len : Nat) (deadline : Int) : OpRes :=
  if !cb then ⟨.fail (some ECANCELED), ch, [], none, []⟩
  else if len ≠ ch.sz then
    -- line 182: return -1 with errno left untouched
    ⟨.fail none, ch, [], none, []⟩
  else if ch.items ≠ 0 then
    -- lines 184-198: read an item from the buffer
    let m := ch.buf.getD ch.first []
    let first1 := (ch.first + 1) % ch.bufsz
    let items1 := ch.items - 1
    match ch.outW with
    | chcl :: rest =>
        -- lines 190-197: a sender was waiting; move its item into the buffer
        ⟨.ok, { ch with buf := ch.buf.set ((first1 + items1) % ch.bufsz) chcl.val,
                        first := first1, items := items1 + 1, outW := rest },
          [⟨chcl, none, 0⟩], some m, [ch.bufsz, ch.bufsz]⟩
    | [] =>
        ⟨.ok, { ch with first := first1, items := items1 }, [], some m, [ch.bufsz]⟩
  else
    match ch.outW with
    | chcl :: rest =>
        -- lines 201-206: copy the message directly from a waiting sender
        ⟨.ok, { ch with outW := rest }, [⟨chcl, none, 0⟩], some chcl.val, []⟩
    | [] =>
        if ch.done ∧ ch.items = 0 then ⟨.fail (some EPIPE), ch, [], none, []⟩
        else if deadline = 0 then ⟨.fail (some ETIMEDOUT), ch, [], none, []⟩
        else
          -- line 215: park on ch->in (the clause's val is the caller's buffer)
          ⟨.parked, { ch with inW := ch.inW ++ [⟨[]⟩] }, [], none, []⟩

/-- Shallow embedding of `chdone`, src/chan.c lines 225-243. -/
def chdone (ch : Chan) : OpRes :=
  if ch.done then ⟨.fail (some EPIPE), ch, [], none, []⟩
  else
    ⟨.ok, { ch with done := true, inW := [], outW := [] },
      ch.inW.map (fun cl => ⟨cl, none, EPIPE⟩) ++ ch.outW.map (fun cl => ⟨cl, none, EPIPE⟩),
      none, []⟩

/-- Well-formedness of a channel state, maintained by every operation (proved
below over reachable states): occupancy bounded by capacity, ring storage of
exactly `bufsz` slots, and head index already reduced modulo the capacity
(for `bufsz = 0` the last condition is `first % 0 = first`, always true). -/
def ChanWF (c : Chan) : Prop :=
  c.items ≤ c.bufsz ∧ c.buf.length = c.bufsz ∧ c.first % c.bufsz = c.first

instance (c : Chan) : Decidable (ChanWF c) := by
  unfold ChanWF; infer_instance

/-- The abstract FIFO content of a ring buffer: slot `first`, then slot
`(first+1) mod bufsz`, ..., `items` entries in all. -/
def ringQueue (buf : List Msg) (bufsz first items : Nat) : List Msg :=
  (List.range items).map (fun i => buf.getD ((first + i) % bufsz) [])

/-- The abstract FIFO content of a channel's ring buffer. -/
def queueOf (c : Chan) : List Msg :=
  ringQueue c.buf c.bufsz c.first c.items

/-- Iterated receive: n successive chrecv calls with the channel's element
size and infinite deadline, collecting the received messages and the final
channel state (stopping early if a call returns no message). -/
def drain (c : Chan) : Nat → List Msg × Chan
  | 0 => ([], c)
  | n + 1 =>
    let r := chrecv true c c.sz (-1)
    match r.recvd with
    | some m =>
        let p := drain r.ch n
        (m :: p.1, p.2)
    | none => ([], r.ch)

/-- Direction field of a chclause (`CHSEND`/`CHRECV`); `CHOTHER` stands for
any other integer value of the `op` field, caught by the switch's default
case (src/chan.c line 311). -/
inductive ChanOp where
  | CHSEND : ChanOp
  | CHRECV : ChanOp
  | CHOTHER : ChanOp
deriving DecidableEq, Repr

/-- One entry of the clause array passed to choose (`struct chclause`):
target handle, direction, payload pointer (`none` = NULL) and length. -/
structure Chclause where
  ch : Nat
  op : ChanOp
  val : Option Msg
  len : Nat
deriving DecidableEq, Repr

/-- The branch condition of the CHSEND arm of choose's polling loop,
src/chan.c line 259. -/
def firesS (ch : Chan) : Prop :=
  ch.items < ch.bufsz ∨ ch.inW ≠ [] ∨ ch.done = true

instance (ch : Chan) : Decidable (firesS ch) := by
  unfold firesS; infer_instance

/-- The branch condition of the CHRECV arm, src/chan.c line 280. -/
def firesR (ch : Chan) : Prop :=
  ch.items ≠ 0 ∨ ch.outW ≠ [] ∨ ch.done = true

instance (ch : Chan) : Decidable (firesR ch) := by
  unfold firesR; infer_instance

/-- Result of an early return of choose's polling loop: returned clause
index, errno write, updated environment, trigger events, received message,
and recorded modulo divisors. -/
structure LoopRes where
  idx : Nat
  errnoW : Option Nat
  env : List Chan
  evs : List Ev
  recvd : Option Msg
  mods : List Nat
deriving DecidableEq, Repr

/-- Body of a fired CHSEND arm, src/chan.c lines 259-277 (`h` is the
clause's handle, `i` its index, `v` its payload). -/
def execSend (env : List Chan) (ch : Chan) (h i : Nat) (v : Msg) : LoopRes :=
  if ch.done then ⟨i, some EPIPE, env, [], none, []⟩
  else
    match ch.inW with
    | chcl :: rest =>
        -- lines 261-269: copy the message directly to the waiting receiver
        ⟨i, some 0, env.set h { ch with inW := rest }, [⟨chcl, some v, 0⟩], none, []⟩
    | [] =>
        -- lines 270-276: dill_assert(ch->items < ch->bufsz); buffered write
        ⟨i, some 0,
          env.set h { ch with buf := ch.buf.set ((ch.first + ch.items) % ch.bufsz) v,
                              items := ch.items + 1 },
          [], none, [ch.bufsz]⟩

/-- Body of a fired CHRECV arm, src/chan.c lines 280-309. -/
def execRecv (env : List Chan) (ch : Chan) (h i : Nat) : LoopRes :=
  if ch.done ∧ ch.items = 0 then ⟨i, some EPIPE, env, [], none, []⟩
  else if ch.items = 0 then
    match ch.outW with
    | chcl :: rest =>
        -- lines 282-291: copy the message directly from the waiting sender
        ⟨i, some 0, env.set h { ch with outW := rest }, [⟨chcl, none, 0⟩],
          some chcl.val, []⟩
    | [] =>
        -- not reachable: this arm fires with items = 0 and done clear only
        -- when ch->out is non-empty (see chooseLoop_fires_recv_shapes below)
        ⟨i, some 0, env, [], none, []⟩
  else
    -- lines 292-308: buffered read, then refill from a waiting sender
    let first1 := (ch.first + 1) % ch.bufsz
    let items1 := ch.items - 1
    match ch.outW with
    | chcl :: rest =>
        ⟨i, some 0,
          env.set h { ch with buf := ch.buf.set ((first1 + items1) % ch.bufsz) chcl.val,
                              first := first1, items := items1 + 1, outW := rest },
          [⟨chcl, none, 0⟩], some (ch.buf.getD ch.first []), [ch.bufsz, ch.bufsz]⟩
    | [] =>
        ⟨i, some 0, env.set h { ch with first := first1, items := items1 },
          [], some (ch.buf.getD ch.first []), [ch.bufsz]⟩

/-- The polling loop of choose, src/chan.c lines 251-315; `i` is the index
of the head of `cls` within the original clause array.  Returns `none` when
the loop falls through every clause without an early return. -/
def chooseLoop (env : List Chan) : List Chclause → Nat → Option LoopRes
  | [], _ => none
  | cl :: rest, i =>
    match env[cl.ch]? with
    | none =>
        -- line 254: hquery failed; return i (EBADF stands for the handle
        -- layer's errno write)
        some ⟨i, some EBADF, env, [], none, []⟩
    | some ch =>
        if cl.len ≠ ch.sz ∨ (cl.len > 0 ∧ cl.val = none) then
          -- lines 255-256
          some ⟨i, some EINVAL, env, [], none, []⟩
        else
          match cl.op with
          | .CHSEND =>
              if firesS ch then some (execSend env ch cl.ch i (cl.val.getD []))
              else chooseLoop env rest (i + 1)
          | .CHRECV =>
              if firesR ch then some (execRecv env ch cl.ch i)
              else chooseLoop env rest (i + 1)
          | .CHOTHER =>
              -- lines 311-313: switch default
              some ⟨i, some EINVAL, env, [], none, []⟩

/-- Parking of one sub-clause, src/chan.c lines 320-325: append to ch->in
for a CHRECV clause, to ch->out otherwise (the handle was already validated
by the polling loop, so the `none` branch is never taken there). -/
def parkOne (env : List Chan) (cl : Chclause) : List Chan :=
  match env[cl.ch]? with
  | some ch =>
      env.set cl.ch
        (if cl.op = ChanOp.CHRECV then { ch with inW := ch.inW ++ [⟨cl.val.getD []⟩] }
         else { ch with outW := ch.outW ++ [⟨cl.val.getD []⟩] })
  | none => env

/-- Parking of every sub-clause, in clause order (src/chan.c lines 320-326). -/
def parkAll (env : List Chan) : List Chclause → List Chan
  | [] => env
  | cl :: rest => parkAll (parkOne env cl) rest

/-- The receive sub-clauses a parking pass appends to channel h's in-list. -/
def parksIn (h : Nat) : List Chclause → List Chcl
  | [] => []
  | cl :: rest =>
    if cl.ch = h ∧ cl.op = ChanOp.CHRECV then ⟨cl.val.getD []⟩ :: parksIn h rest
    else parksIn h rest

/-- The send sub-clauses a parking pass appends to channel h's out-list. -/
def parksOut (h : Nat) : List Chclause → List Chcl
  | [] => []
  | cl :: rest =>
    if cl.ch = h ∧ cl.op ≠ ChanOp.CHRECV then ⟨cl.val.getD []⟩ :: parksOut h rest
    else parksOut h rest

/-- Overall outcome of a choose call: an immediate return (value plus errno
write), or suspension after parking every sub-clause. -/
inductive ChooseOut where
  | ret (rc : Int) (errnoW : Option Nat) : ChooseOut
  | parked : ChooseOut
deriving DecidableEq, Repr

/-- Result of a choose call. -/
structure ChooseRes where
  out : ChooseOut
  env : List Chan
  evs : List Ev
  recvd : Option Msg
  mods : List Nat
deriving DecidableEq, Repr

/-- Shallow embedding of `choose`, src/chan.c lines 245-333.  `clauses` is
the clause array (`none` = NULL pointer); the loop walks the first
`nclauses` entries (in C, passing more than the array holds is undefined;
the model walks the entries that exist). -/
def choose (cb : Bool) (env : List Chan) (clauses : Option (List Chclause))
    (nclauses : Int) (deadline : Int) : ChooseRes :=
  if !cb then ⟨.ret (-1) (some ECANCELED), env, [], none, []⟩
  else if nclauses < 0 ∨ (nclauses ≠ 0 ∧ clauses = none) then
    -- lines 248-249
    ⟨.ret (-1) (some EINVAL), env, [], none, []⟩
  else
    match chooseLoop env ((clauses.getD []).take nclauses.toNat) 0 with
    | some r => ⟨.ret r.idx r.errnoW, r.env, r.evs, r.recvd, r.mods⟩
    | none =>
        -- lines 316-317
        if deadline = 0 then ⟨.ret (-1) (some ETIMEDOUT), env, [], none, []⟩
        -- lines 318-328: park every sub-clause and suspend
        else ⟨.parked, parkAll env ((clauses.getD []).take nclauses.toNat), [], none, []⟩

/-- A clause passes the per-clause validation of the polling loop: the
handle resolves, the length matches, a positive length has a non-null
payload, and the direction is known (src/chan.c lines 253-257, 311-313). -/
def validCl (env : List Chan) (cl : Chclause) : Prop :=
  match env[cl.ch]? with
  | none => False
  | some ch => cl.len = ch.sz ∧ ¬(cl.len > 0 ∧ cl.val = none) ∧ cl.op ≠ ChanOp.CHOTHER

instance (env : List Chan) (cl : Chclause) : Decidable (validCl env cl) :=
  match h : env[cl.ch]? with
  | none => isFalse (by simp [validCl, h])
  | some ch =>
      decidable_of_iff
        (cl.len = ch.sz ∧ ¬(cl.len > 0 ∧ cl.val = none) ∧ cl.op ≠ ChanOp.CHOTHER)
        (by simp [validCl, h])

/-- A clause's polling arm fires (the clause causes an early return with
its own index). -/
def firesCl (env : List Chan) (cl : Chclause) : Prop :=
  match env[cl.ch]? with
  | none => False
  | some ch =>
      match cl.op with
      | .CHSEND => firesS ch
      | .CHRECV => firesR ch
      | .CHOTHER => False

instance (env : List Chan) (cl : Chclause) : Decidable (firesCl env cl) :=
  match h : env[cl.ch]? with
  | none => isFalse (by simp [firesCl, h])
  | some ch =>
      match hop : cl.op with
      | .CHSEND => decidable_of_iff (firesS ch) (by simp [firesCl, h, hop])
      | .CHRECV => decidable_of_iff (firesR ch) (by simp [firesCl, h, hop])
      | .CHOTHER => isFalse (by simp [firesCl, h, hop])

/-- Modelled from the claim C6 wording: "a send-clause is ready iff the
channel is not done and (a receiver is waiting or the buffer has room)". -/
def specSendReady (ch : Chan) : Prop :=
  ch.done = false ∧ (ch.inW ≠ [] ∨ ch.items < ch.bufsz)

instance (ch : Chan) : Decidable (specSendReady ch) := by
  unfold specSendReady; infer_instance

/-- Modelled from the claim C6 wording: "a recv-clause is ready iff a
buffered item exists, a sender is waiting, or the channel is done". -/
def specRecvReady (ch : Chan) : Prop :=
  ch.items ≠ 0 ∨ ch.outW ≠ [] ∨ ch.done = true

instance (ch : Chan) : Decidable (specRecvReady ch) := by
  unfold specRecvReady; infer_instance

/-- The errno value choose reports for a fired clause, as a function of the
corresponding send/recv outcome: 0 on clean delivery, the written errno
(EPIPE) otherwise. -/
def errnoOfOut : Outcome → Option Nat
  | .ok => some 0
  | .fail w => w
  | .parked => none

/-- Top-level send on handle `h` of an environment: hquery resolves the
handle (src/chan.c line 139); a failed lookup returns -1 before touching
any channel, so the environment is unchanged. -/
def sendStep (env : List Chan) (h : Nat) (cb : Bool) (v : Msg) (len : Nat)
    (d : Int) : List Chan :=
  match env[h]? with
  | some ch => env.set h (chsend cb ch v len d).ch
  | none => env

/-- Top-level receive on handle `h` (src/chan.c line 179). -/
def recvStep (env : List Chan) (h : Nat) (cb : Bool) (len : Nat) (d : Int) :
    List Chan :=
  match env[h]? with
  | some ch => env.set h (chrecv cb ch len d).ch
  | none => env

/-- Top-level chdone on handle `h` (src/chan.c line 226). -/
def doneStep (env : List Chan) (h : Nat) : List Chan :=
  match env[h]? with
  | some ch => env.set h (chdone ch).ch
  | none => env

/-- One top-level operation on the environment of all channels: create,
send, recv, done, or choose. -/
inductive Step : List Chan → List Chan → Prop where
  | create (env : List Chan) (sz bufsz : Nat) :
      Step env (env ++ [mkChan sz bufsz])
  | send (env : List Chan) (h : Nat) (cb : Bool) (v : Msg) (len : Nat) (d : Int) :
      Step env (sendStep env h cb v len d)
  | recv (env : List Chan) (h : Nat) (cb : Bool) (len : Nat) (d : Int) :
      Step env (recvStep env h cb len d)
  | done (env : List Chan) (h : Nat) :
      Step env (doneStep env h)
  | choice (env : List Chan) (cb : Bool) (clauses : Option (List Chclause))
      (ncl : Int) (d : Int) :
      Step env (choose cb env clauses ncl d).env

/-- Environments reachable from the empty environment by top-level
operations. -/
inductive Reachable : List Chan → Prop where
  | nil : Reachable []
  | step (env env' : List Chan) : Reachable env → Step env env' → Reachable env'

/-- No two clauses of one choose call target the same channel in different
directions. -/
def DirConsistent (cls : List Chclause) : Prop :=
  ∀ cl1 ∈ cls, ∀ cl2 ∈ cls, cl1.ch = cl2.ch → cl1.op = cl2.op

instance (cls : List Chclause) : Decidable (DirConsistent cls) := by
  unfold DirConsistent; infer_instance

/-- Like `Step`, but every choose call is direction-consistent: no call
parks sub-clauses of both directions on one channel. -/
inductive StepG : List Chan → List Chan → Prop where
  | create (env : List Chan) (sz bufsz : Nat) :
      StepG env (env ++ [mkChan sz bufsz])
  | send (env : List Chan) (h : Nat) (cb : Bool) (v : Msg) (len : Nat) (d : Int) :
      StepG env (sendStep env h cb v len d)
  | recv (env : List Chan) (h : Nat) (cb : Bool) (len : Nat) (d : Int) :
      StepG env (recvStep env h cb len d)
  | done (env : List Chan) (h : Nat) :
      StepG env (doneStep env h)
  | choice (env : List Chan) (cb : Bool) (clauses : Option (List Chclause))
      (ncl : Int) (d : Int)
      (hdir : DirConsistent ((clauses.getD []).take ncl.toNat)) :
      StepG env (choose cb env clauses ncl d).env

/-- Environments reachable using only direction-consistent choose calls. -/
inductive ReachableG : List Chan → Prop where
  | nil : ReachableG []
  | step (env env' : List Chan) : ReachableG env → StepG env env' → ReachableG env'

theorem getD_set_ne (l : List Msg) (p q : Nat) (v d : Msg) (h : p ≠ q) :
    (l.set p v).getD q d = l.getD q d := by
  induction l generalizing p q with
  | nil => simp
  | cons a t ih =>
    cases p with
    | zero =>
      cases q with
      | zero => exact absurd rfl h
      | succ q => simp
    | succ p =>
      cases q with
      | zero => simp
      | succ q => simpa using ih p q (by omega)

theorem getD_set_self (l : List Msg) (p : Nat) (v d : Msg) (h : p < l.length) :
    (l.set p v).getD p d = v := by
  induction l generalizing p with
  | nil => simp at h
  | cons a t ih =>
    cases p with
    | zero => simp
    | succ p => simpa using ih p (by simpa using h)

/-- Two distinct logical positions of the ring map to distinct slots as long
as the span stays within the capacity. -/
theorem ring_slot_ne (b first i j : Nat) (hij : i < j) (hj : j < b) :
    (first + i) % b ≠ (first + j) % b := by
  intro h
  have hd : b ∣ (first + j) - (first + i) := (Nat.modEq_iff_dvd' (by omega)).mp h
  have he : first + j - (first + i) = j - i := by omega
  rw [he] at hd
  have := Nat.le_of_dvd (by omega) hd
  omega

/-- Writing the slot at `(first+items) mod bufsz` and bumping `items` appends
to the abstract queue (src/chan.c lines 153-158 and 193-195). -/
theorem ringQueue_enqueue (buf : List Msg) (bufsz first items : Nat) (v : Msg)
    (hlen : buf.length = bufsz) (hlt : items < bufsz) :
    ringQueue (buf.set ((first + items) % bufsz) v) bufsz first (items + 1)
      = ringQueue buf bufsz first items ++ [v] := by
  simp only [ringQueue, List.range_succ, List.map_append, List.map_cons, List.map_nil]
  congr 1
  · apply List.map_congr_left
    intro i hi
    exact getD_set_ne _ _ _ _ _
      (Ne.symm (ring_slot_ne bufsz first i items (List.mem_range.mp hi) hlt))
  · have hp : (first + items) % bufsz < buf.length := by
      rw [hlen]; exact Nat.mod_lt _ (by omega)
    rw [getD_set_self _ _ _ _ hp]

/-- Reading the slot at `first`, advancing `first` modulo the capacity and
decrementing `items` removes the head of the abstract queue (src/chan.c
lines 186-188). -/
theorem ringQueue_cons (buf : List Msg) (bufsz first items : Nat)
    (h0 : 0 < items) (hf : first % bufsz = first) :
    ringQueue buf bufsz first items
      = buf.getD first [] :: ringQueue buf bufsz ((first + 1) % bufsz) (items - 1) := by
  obtain ⟨k, rfl⟩ : ∃ k, items = k + 1 := ⟨items - 1, by omega⟩
  simp only [ringQueue, Nat.add_sub_cancel]
  rw [List.range_succ_eq_map]
  simp only [List.map_cons, List.map_map]
  congr 1
  · rw [Nat.add_zero, hf]
  · apply List.map_congr_left
    intro i _
    simp only [Function.comp_apply, Nat.succ_eq_add_one]
    have h3 : first + 1 + i = first + (i + 1) := by omega
    rw [Nat.mod_add_mod, h3]

end LibdillChan

namespace LibdillChan

/-- Draining a channel with no parked sender returns exactly the abstract
queue in FIFO order and leaves an empty buffer; the done flag, element size,
and waiter lists are untouched. -/
theorem drain_spec : ∀ (n : Nat) (c : Chan), c.items = n → c.items ≤ c.bufsz →
    c.buf.length = c.bufsz → c.first % c.bufsz = c.first → c.outW = [] →
    (drain c n).1 = queueOf c ∧
    (drain c n).2.items = 0 ∧ (drain c n).2.done = c.done ∧
    (drain c n).2.sz = c.sz ∧ (drain c n).2.outW = [] ∧
    (drain c n).2.inW = c.inW ∧ (drain c n).1.length = n := by
  intro n
  induction n with
  | zero =>
    intro c h0 _ _ _ hout
    simp [drain, queueOf, ringQueue, h0, hout]
  | succ k ih =>
    intro c hk hib hbl hfm hout
    have hne : c.items ≠ 0 := by omega
    have hred : chrecv true c c.sz (-1) =
        ⟨.ok, { c with first := (c.first + 1) % c.bufsz, items := c.items - 1 },
          [], some (c.buf.getD c.first []), [c.bufsz]⟩ := by
      simp [chrecv, hne, hout]
    have hstep : drain c (k + 1)
        = ((c.buf.getD c.first [])
              :: (drain { c with first := (c.first + 1) % c.bufsz,
                                 items := c.items - 1 } k).1,
           (drain { c with first := (c.first + 1) % c.bufsz,
                           items := c.items - 1 } k).2) := by
      simp [drain, hred]
    obtain ⟨ih1, ih2, ih3, ih4, ih5, ih6, ih7⟩ :=
      ih { c with first := (c.first + 1) % c.bufsz, items := c.items - 1 }
        (by show c.items - 1 = k; omega)
        (by show c.items - 1 ≤ c.bufsz; omega)
        hbl
        (by show (c.first + 1) % c.bufsz % c.bufsz = (c.first + 1) % c.bufsz
            exact Nat.mod_mod_of_dvd _ dvd_rfl)
        hout
    rw [hstep]
    refine ⟨?_, ih2, ih3, ih4, ih5, ih6, ?_⟩
    · rw [ih1]
      show c.buf.getD c.first []
            :: ringQueue c.buf c.bufsz ((c.first + 1) % c.bufsz) (c.items - 1)
          = ringQueue c.buf c.bufsz c.first c.items
      exact (ringQueue_cons c.buf c.bufsz c.first c.items (by omega) hfm).symm
    · simpa using ih7

/-- Claim C1's failing input: a freshly created channel with elem_size 1
and a send/recv with len = 0.  The length-mismatch check in `chsend`
(src/chan.c line 142) and `chrecv` (line 182) returns -1 with errno left
untouched (outcome `.fail none`), not set to EINVAL as the spec states —
whereas the identical validation inside `choose` (lines 255-256) does set
EINVAL for the very same mismatch, showing the omission is a slip. -/
theorem c1_errno_not_set_on_length_mismatch :
    (chsend true (mkChan 1 0) [] 0 (-1)).out = .fail none ∧
    (chrecv true (mkChan 1 0) 0 (-1)).out = .fail none ∧
    (choose true [mkChan 1 0] (some [⟨0, ChanOp.CHSEND, some [], 0⟩]) 1 (-1)).out
      = .ret 0 (some EINVAL) := by
  refine ⟨rfl, rfl, by decide⟩

/-- Claim C5: on a channel whose done flag is clear, chdone sets done, empties
both waiter lists triggering every parked clause with EPIPE (receivers first,
then senders, as in src/chan.c lines 232-241), and returns ok; on a channel
already done it fails with EPIPE and leaves the state unchanged. -/
theorem c5_chdone_drains_waiters_and_is_not_idempotent (c : Chan) :
    (c.done = false →
        (chdone c).out = .ok ∧
        (chdone c).ch = { c with done := true, inW := [], outW := [] } ∧
        (chdone c).evs = (c.inW ++ c.outW).map (fun cl => ⟨cl, none, EPIPE⟩) ∧
        (∀ e ∈ (chdone c).evs, e.code = EPIPE)) ∧
    (c.done = true → (chdone c).out = .fail (some EPIPE) ∧ (chdone c).ch = c) := by
  constructor
  · intro hd
    refine ⟨?_, ?_, ?_, ?_⟩
    · simp [chdone, hd]
    · simp [chdone, hd]
    · simp only [chdone, hd, Bool.false_eq_true, if_false]
      simp [List.map_append]
    · intro e he
      simp only [chdone, hd, Bool.false_eq_true, if_false, List.mem_append,
        List.mem_map] at he
      rcases he with ⟨cl, _, rfl⟩ | ⟨cl, _, rfl⟩ <;> rfl
  · intro hd
    simp [chdone, hd]

/-- Witness for C5 at a concrete channel with one parked receiver and an
empty send list. -/
theorem c5_witness :
    (chdone { sz := 1, bufsz := 0, buf := [], items := 0, first := 0,
              inW := [⟨[7]⟩], outW := [], done := false }).out = .ok :=
  ((c5_chdone_drains_waiters_and_is_not_idempotent
      { sz := 1, bufsz := 0, buf := [], items := 0, first := 0,
        inW := [⟨[7]⟩], outW := [], done := false }).1 rfl).1

/-- Claim C8: when a receiver is parked at send entry (and the shutdown,
length and done checks pass), chsend pops the head receiver, copies the
payload into its buffer, triggers it with success and returns ok, leaving
the ring buffer (`items`, `first`, `buf`) and the send-waiter list
untouched (src/chan.c lines 145-152). -/
theorem c8_direct_handoff_frame (c : Chan) (v : Msg) (d : Int) (r : Chcl)
    (rest : List Chcl) (hin : c.inW = r :: rest) (hdone : c.done = false) :
    (chsend true c v c.sz d).out = .ok ∧
    (chsend true c v c.sz d).evs = [⟨r, some v, 0⟩] ∧
    (chsend true c v c.sz d).ch.items = c.items ∧
    (chsend true c v c.sz d).ch.first = c.first ∧
    (chsend true c v c.sz d).ch.buf = c.buf ∧
    (chsend true c v c.sz d).ch.outW = c.outW ∧
    (chsend true c v c.sz d).ch.inW = rest := by
  simp [chsend, hin, hdone]

/-- Claim C3: on a channel with `items > 0`, chrecv copies the slot at index
`first` out, advances `first` modulo the capacity and decrements `items`;
when a sender is parked it moreover pops the head sender, writes its payload
into the slot at `(first+items) mod bufsz`, increments `items` back to its
entry value and triggers the sender with success; the abstract FIFO queue
turns from `q` into `q.tail` (plus the refilled payload at the back), so
buffered FIFO order is preserved (src/chan.c lines 184-198). -/
theorem c3_recv_buffer_read_and_refill (c : Chan) (d : Int) (hwf : ChanWF c)
    (h0 : 0 < c.items) :
    (chrecv true c c.sz d).out = .ok ∧
    (chrecv true c c.sz d).recvd = some (c.buf.getD c.first []) ∧
    (chrecv true c c.sz d).ch.first = (c.first + 1) % c.bufsz ∧
    (c.outW = [] →
        (chrecv true c c.sz d).ch.items = c.items - 1 ∧
        (chrecv true c c.sz d).evs = [] ∧
        queueOf (chrecv true c c.sz d).ch = (queueOf c).tail) ∧
    (∀ s rest, c.outW = s :: rest →
        (chrecv true c c.sz d).ch.items = c.items ∧
        (chrecv true c c.sz d).ch.outW = rest ∧
        (chrecv true c c.sz d).ch.buf
          = c.buf.set (((c.first + 1) % c.bufsz + (c.items - 1)) % c.bufsz) s.val ∧
        (chrecv true c c.sz d).evs = [⟨s, none, 0⟩] ∧
        queueOf (chrecv true c c.sz d).ch = (queueOf c).tail ++ [s.val]) := by
  obtain ⟨hib, hbl, hfm⟩ := hwf
  have hne : c.items ≠ 0 := by omega
  have hq := ringQueue_cons c.buf c.bufsz c.first c.items h0 hfm
  cases houtW : c.outW with
  | nil =>
    have hred : chrecv true c c.sz d =
        ⟨.ok, { c with first := (c.first + 1) % c.bufsz, items := c.items - 1 },
          [], some (c.buf.getD c.first []), [c.bufsz]⟩ := by
      simp [chrecv, hne, houtW]
    rw [hred]
    refine ⟨rfl, rfl, rfl, ?_, ?_⟩
    · intro _
      refine ⟨rfl, rfl, ?_⟩
      simp only [queueOf]
      rw [hq]
      rfl
    · intro s rest hsr
      cases hsr
  | cons s0 rest0 =>
    have hred : chrecv true c c.sz d =
        ⟨.ok,
          { c with
              buf := c.buf.set (((c.first + 1) % c.bufsz + (c.items - 1)) % c.bufsz) s0.val,
              first := (c.first + 1) % c.bufsz, items := c.items - 1 + 1, outW := rest0 },
          [⟨s0, none, 0⟩], some (c.buf.getD c.first []), [c.bufsz, c.bufsz]⟩ := by
      simp [chrecv, hne, houtW]
    rw [hred]
    refine ⟨rfl, rfl, rfl, ?_, ?_⟩
    · intro hnil
      cases hnil
    · intro s rest hsr
      injection hsr with h1 h2
      subst h1
      subst h2
      refine ⟨by show c.items - 1 + 1 = c.items; omega, rfl, rfl, rfl, ?_⟩
      simp only [queueOf]
      rw [ringQueue_enqueue c.buf c.bufsz ((c.first + 1) % c.bufsz) (c.items - 1) s0.val hbl
        (by omega)]
      rw [hq]
      rfl

/-- Witness for C3: a capacity-2 channel holding two messages, no parked
sender: recv returns the older message and dequeues it. -/
theorem c3_witness :
    (chrecv true { sz := 1, bufsz := 2, buf := [[4], [5]], items := 2, first := 0,
                   inW := [], outW := [], done := false } 1 (-1)).recvd = some [4] :=
  (c3_recv_buffer_read_and_refill
      { sz := 1, bufsz := 2, buf := [[4], [5]], items := 2, first := 0,
        inW := [], outW := [], done := false } (-1) (by decide) (by decide)).2.1

/-- Claim C4: on a channel whose done flag is set while k > 0 messages are
buffered (and whose waiter lists are empty, as chdone leaves them), the next
k receives succeed and return the buffered messages in FIFO order, the
(k+1)-th receive fails with EPIPE, and chrecv fails with EPIPE only when the
buffer is empty and done is set (src/chan.c lines 184-199 and 209). -/
theorem c4_drain_after_done (c : Chan) (hwf : ChanWF c) (hdone : c.done = true)
    (hout : c.outW = []) (hpos : 0 < c.items) :
    (drain c c.items).1 = queueOf c ∧
    (drain c c.items).1.length = c.items ∧
    (∀ d : Int, (chrecv true (drain c c.items).2 c.sz d).out = .fail (some EPIPE)) ∧
    (∀ (c' : Chan) (cb : Bool) (len : Nat) (d : Int),
        (chrecv cb c' len d).out = .fail (some EPIPE) →
        c'.items = 0 ∧ c'.done = true) := by
  obtain ⟨hib, hbl, hfm⟩ := hwf
  obtain ⟨h1, h2, h3, h4, h5, h6, h7⟩ := drain_spec c.items c rfl hib hbl hfm hout
  refine ⟨h1, h7, ?_, ?_⟩
  · intro d
    simp [chrecv, h2, h3, h4, h5, hdone]
  · intro c' cb len d h
    cases cb with
    | false => simp [chrecv, ECANCELED, EPIPE] at h
    | true =>
      by_cases hlen : len = c'.sz
      · by_cases hitems : c'.items = 0
        · cases hout' : c'.outW with
          | cons a l => simp [chrecv, hlen, hitems, hout'] at h
          | nil =>
            by_cases hd : c'.done = true
            · exact ⟨hitems, hd⟩
            · by_cases hdl : d = 0
              · simp [chrecv, hlen, hitems, hout', hd, hdl, ETIMEDOUT, EPIPE] at h
              · simp [chrecv, hlen, hitems, hout', hd, hdl] at h
        · cases hout' : c'.outW with
          | cons a l => simp [chrecv, hlen, hitems, hout'] at h
          | nil => simp [chrecv, hlen, hitems, hout'] at h
      · simp [chrecv, hlen] at h

/-- Witness for C4: a done channel of capacity 2 holding two messages. -/
theorem c4_witness :
    (drain { sz := 1, bufsz := 2, buf := [[4], [5]], items := 2, first := 0,
             inW := [], outW := [], done := true } 2).1
      = queueOf { sz := 1, bufsz := 2, buf := [[4], [5]], items := 2, first := 0,
                  inW := [], outW := [], done := true } :=
  (c4_drain_after_done
      { sz := 1, bufsz := 2, buf := [[4], [5]], items := 2, first := 0,
        inW := [], outW := [], done := true }
      (by decide) rfl rfl (by decide)).1

/-- Claim C7 (round trip, L1): a sent bit-pattern is delivered exactly,
byte for byte, on each of the three delivery paths: through the ring buffer
(src/chan.c lines 153-158 and 184-188: after the send, draining the buffer
ends with the sent value), by rendezvous read from a parked sender (lines
201-206), and by direct hand-off into a parked receiver's buffer (lines
145-152). -/
theorem c7_round_trip (c : Chan) (v : Msg) (d : Int) (hwf : ChanWF c) :
    (c.inW = [] → c.outW = [] → c.done = false → c.items < c.bufsz →
        (chsend true c v c.sz d).out = .ok ∧
        (drain (chsend true c v c.sz d).ch (chsend true c v c.sz d).ch.items).1
          = queueOf c ++ [v]) ∧
    (∀ s rest, c.items = 0 → c.outW = s :: rest →
        (chrecv true c c.sz d).out = .ok ∧
        (chrecv true c c.sz d).recvd = some s.val) ∧
    (∀ r rest, c.done = false → c.inW = r :: rest →
        (chsend true c v c.sz d).out = .ok ∧
        (chsend true c v c.sz d).evs = [⟨r, some v, 0⟩]) := by
  obtain ⟨hib, hbl, hfm⟩ := hwf
  refine ⟨?_, ?_, ?_⟩
  · intro hin hout hdone hlt
    have hred : chsend true c v c.sz d =
        ⟨.ok, { c with buf := c.buf.set ((c.first + c.items) % c.bufsz) v,
                       items := c.items + 1 }, [], none, [c.bufsz]⟩ := by
      simp [chsend, hin, hdone, hlt]
    rw [hred]
    refine ⟨rfl, ?_⟩
    obtain ⟨h1, _, _, _, _, _, _⟩ := drain_spec
      ({ c with buf := c.buf.set ((c.first + c.items) % c.bufsz) v,
                items := c.items + 1 } : Chan).items
      { c with buf := c.buf.set ((c.first + c.items) % c.bufsz) v,
               items := c.items + 1 }
      rfl
      (by show c.items + 1 ≤ c.bufsz; omega)
      (by show (c.buf.set _ v).length = c.bufsz; simpa using hbl)
      hfm
      hout
    rw [h1]
    show ringQueue (c.buf.set ((c.first + c.items) % c.bufsz) v) c.bufsz c.first (c.items + 1)
        = ringQueue c.buf c.bufsz c.first c.items ++ [v]
    exact ringQueue_enqueue c.buf c.bufsz c.first c.items v hbl hlt
  · intro s rest h0 hsr
    have hne : ¬ c.items ≠ 0 := by omega
    constructor <;> simp [chrecv, hne, hsr]
  · intro r rest hdone hin
    constructor <;> simp [chsend, hdone, hin]

/-- Witness for C7: an unbuffered channel with one parked sender holding
the byte 3; the rendezvous receive delivers exactly that byte. -/
theorem c7_witness :
    (chrecv true { sz := 1, bufsz := 0, buf := [], items := 0, first := 0,
                   inW := [], outW := [⟨[3]⟩], done := false } 1 (-1)).recvd = some [3] :=
  ((c7_round_trip
      { sz := 1, bufsz := 0, buf := [], items := 0, first := 0,
        inW := [], outW := [⟨[3]⟩], done := false } [] (-1) (by decide)).2.1
    ⟨[3]⟩ [] rfl rfl).2

/-- A valid, non-firing head clause is skipped by the polling loop. -/
theorem chooseLoop_skip (env : List Chan) (cl : Chclause) (rest : List Chclause)
    (i : Nat) (hv : validCl env cl) (hf : ¬ firesCl env cl) :
    chooseLoop env (cl :: rest) i = chooseLoop env rest (i + 1) := by
  cases hch : env[cl.ch]? with
  | none => simp [validCl, hch] at hv
  | some ch =>
    simp only [validCl, hch] at hv
    obtain ⟨hlen, hval, hop⟩ := hv
    simp only [firesCl, hch] at hf
    simp only [chooseLoop, hch]
    rw [if_neg (by
      intro hbad
      rcases hbad with h | h
      · exact h hlen
      · exact hval h)]
    cases hcop : cl.op with
    | CHSEND =>
      rw [hcop] at hf
      rw [if_neg hf]
    | CHRECV =>
      rw [hcop] at hf
      rw [if_neg hf]
    | CHOTHER => exact absurd hcop hop

/-- Skipping a prefix of valid, non-firing clauses. -/
theorem chooseLoop_drop (env : List Chan) :
    ∀ (m : Nat) (cls : List Chclause) (i : Nat),
      (∀ j, j < m → ∀ cl, cls[j]? = some cl → validCl env cl ∧ ¬ firesCl env cl) →
      chooseLoop env cls i = chooseLoop env (cls.drop m) (i + m) := by
  intro m
  induction m with
  | zero => intro cls i _; simp
  | succ k ih =>
    intro cls i hpre
    cases cls with
    | nil => rfl
    | cons cl rest =>
      obtain ⟨hv, hf⟩ := hpre 0 (by omega) cl (by simp)
      rw [chooseLoop_skip env cl rest i hv hf]
      rw [ih rest (i + 1) (fun j hj cl' hg => hpre (j + 1) (by omega) cl' (by simpa using hg))]
      show chooseLoop env (rest.drop k) (i + 1 + k) = chooseLoop env (rest.drop k) (i + (k + 1))
      rw [show i + 1 + k = i + (k + 1) by omega]

/-- A malformed head clause (with a resolvable handle) makes the loop return
its index with EINVAL and the environment untouched. -/
theorem chooseLoop_invalid_head (env : List Chan) (cl : Chclause)
    (rest : List Chclause) (i : Nat) (ch : Chan) (hch : env[cl.ch]? = some ch)
    (hbad : cl.len ≠ ch.sz ∨ (cl.len > 0 ∧ cl.val = none) ∨ cl.op = ChanOp.CHOTHER) :
    chooseLoop env (cl :: rest) i = some ⟨i, some EINVAL, env, [], none, []⟩ := by
  simp only [chooseLoop, hch]
  by_cases h1 : cl.len ≠ ch.sz ∨ (cl.len > 0 ∧ cl.val = none)
  · rw [if_pos h1]
  · rw [if_neg h1]
    have hop : cl.op = ChanOp.CHOTHER := by
      rcases hbad with h | h | h
      · exact absurd (Or.inl h) h1
      · exact absurd (Or.inr h) h1
      · exact h
    rw [hop]

/-- When the polling loop falls through every clause, each clause was valid
and none of them fired. -/
theorem chooseLoop_none_forall (env : List Chan) :
    ∀ (cls : List Chclause) (i : Nat), chooseLoop env cls i = none →
      ∀ cl ∈ cls, validCl env cl ∧ ¬ firesCl env cl := by
  intro cls
  induction cls with
  | nil => intro i _ cl hcl; cases hcl
  | cons cl0 rest ih =>
    intro i hnone cl hcl
    cases hch : env[cl0.ch]? with
    | none => simp [chooseLoop, hch] at hnone
    | some ch =>
      simp only [chooseLoop, hch] at hnone
      by_cases hbad : cl0.len ≠ ch.sz ∨ (cl0.len > 0 ∧ cl0.val = none)
      · rw [if_pos hbad] at hnone; cases hnone
      · rw [if_neg hbad] at hnone
        have hbad' := not_or.mp hbad
        cases hcop : cl0.op with
        | CHOTHER => rw [hcop] at hnone; cases hnone
        | CHSEND =>
          rw [hcop] at hnone
          by_cases hfs : firesS ch
          · rw [if_pos hfs] at hnone; cases hnone
          · rw [if_neg hfs] at hnone
            rcases List.mem_cons.mp hcl with rfl | hmem
            · refine ⟨?_, ?_⟩
              · simp only [validCl, hch]
                exact ⟨not_ne_iff.mp hbad'.1, hbad'.2, by simp [hcop]⟩
              · simp only [firesCl, hch, hcop]
                exact hfs
            · exact ih (i + 1) hnone cl hmem
        | CHRECV =>
          rw [hcop] at hnone
          by_cases hfr : firesR ch
          · rw [if_pos hfr] at hnone; cases hnone
          · rw [if_neg hfr] at hnone
            rcases List.mem_cons.mp hcl with rfl | hmem
            · refine ⟨?_, ?_⟩
              · simp only [validCl, hch]
                exact ⟨not_ne_iff.mp hbad'.1, hbad'.2, by simp [hcop]⟩
              · simp only [firesCl, hch, hcop]
                exact hfr
            · exact ih (i + 1) hnone cl hmem

/-- Effect of parking a single sub-clause on an arbitrary handle. -/
theorem parkOne_getElem? (env : List Chan) (cl : Chclause) (h : Nat) :
    (parkOne env cl)[h]?
      = if cl.ch = h then
          (env[h]?).map (fun c =>
            if cl.op = ChanOp.CHRECV then { c with inW := c.inW ++ [⟨cl.val.getD []⟩] }
            else { c with outW := c.outW ++ [⟨cl.val.getD []⟩] })
        else env[h]? := by
  by_cases hh : cl.ch = h
  · subst hh
    rw [if_pos rfl]
    cases hch : env[cl.ch]? with
    | none => simp [parkOne, hch]
    | some ch =>
      have hlt : cl.ch < env.length := (List.getElem?_eq_some.mp hch).1
      simp only [parkOne, hch, Option.map_some']
      rw [List.getElem?_set_eq (by simpa using hlt)]
  · rw [if_neg hh]
    cases hch : env[cl.ch]? with
    | none => simp [parkOne, hch]
    | some ch =>
      simp only [parkOne, hch]
      exact List.getElem?_set_ne hh

/-- Effect of a whole parking pass on an arbitrary handle: the receive
sub-clauses targeting it are appended to its in-list and the send
sub-clauses to its out-list, in clause order. -/
theorem parkAll_getElem? :
    ∀ (cls : List Chclause) (env : List Chan) (h : Nat),
      (parkAll env cls)[h]?
        = (env[h]?).map (fun c =>
            { c with inW := c.inW ++ parksIn h cls, outW := c.outW ++ parksOut h cls }) := by
  intro cls
  induction cls with
  | nil =>
    intro env h
    cases hch : env[h]? <;> simp [parkAll, parksIn, parksOut, hch]
  | cons cl rest ih =>
    intro env h
    show (parkAll (parkOne env cl) rest)[h]? = _
    rw [ih (parkOne env cl) h, parkOne_getElem?]
    by_cases hh : cl.ch = h
    · rw [if_pos hh]
      cases hch : env[h]? with
      | none => simp
      | some c =>
        simp only [Option.map_some']
        by_cases hop : cl.op = ChanOp.CHRECV
        · rw [if_pos hop]
          rw [parksIn, parksOut, if_pos ⟨hh, hop⟩, if_neg (by
            intro hcon
            exact hcon.2 hop)]
          simp [List.append_assoc]
        · rw [if_neg hop]
          rw [parksIn, parksOut, if_neg (by
            intro hcon
            exact hop hcon.2), if_pos ⟨hh, hop⟩]
          simp [List.append_assoc]
    · rw [if_neg hh]
      cases hch : env[h]? with
      | none => simp
      | some c =>
        simp only [Option.map_some']
        rw [parksIn, parksOut, if_neg (by
            intro hcon
            exact hh hcon.1), if_neg (by
            intro hcon
            exact hh hcon.1)]

/-- Every member of a parked environment is a member of the original
environment with some sub-clauses appended to its waiter lists. -/
theorem parkAll_mem_shape (env : List Chan) (cls : List Chclause) (c' : Chan)
    (h : c' ∈ parkAll env cls) :
    ∃ (n : Nat) (c : Chan), env[n]? = some c ∧ c ∈ env ∧
      c' = { c with inW := c.inW ++ parksIn n cls, outW := c.outW ++ parksOut n cls } := by
  obtain ⟨n, hn, hval⟩ := List.getElem_of_mem h
  have hn' : (parkAll env cls)[n]? = some c' := by
    rw [List.getElem?_eq_some]
    exact ⟨hn, hval⟩
  rw [parkAll_getElem? cls env n] at hn'
  cases hch : env[n]? with
  | none => rw [hch] at hn'; cases hn'
  | some c =>
    rw [hch] at hn'
    simp only [Option.map_some'] at hn'
    exact ⟨n, c, hch, List.getElem?_mem hch, (Option.some.inj hn').symm⟩

/-- Case analysis of the channel state chsend leaves behind. -/
theorem chsend_ch_cases (cb : Bool) (ch : Chan) (v : Msg) (len : Nat) (d : Int) :
    (chsend cb ch v len d).ch = ch ∨
    (∃ chcl rest, ch.inW = chcl :: rest ∧
        (chsend cb ch v len d).ch = { ch with inW := rest }) ∨
    (ch.inW = [] ∧ ch.items < ch.bufsz ∧
        (chsend cb ch v len d).ch
          = { ch with buf := ch.buf.set ((ch.first + ch.items) % ch.bufsz) v,
                      items := ch.items + 1 }) ∨
    (ch.inW = [] ∧
        (chsend cb ch v len d).ch = { ch with outW := ch.outW ++ [⟨v⟩] }) := by
  unfold chsend
  split
  · left; rfl
  · split
    · left; rfl
    · split
      · left; rfl
      · split
        · rename_i chcl rest heq
          right; left; exact ⟨chcl, rest, heq, rfl⟩
        · rename_i heq
          split
          · rename_i hlt
            right; right; left; exact ⟨heq, hlt, rfl⟩
          · split
            · left; rfl
            · right; right; right; exact ⟨heq, rfl⟩

/-- Case analysis of the channel state chrecv leaves behind. -/
theorem chrecv_ch_cases (cb : Bool) (ch : Chan) (len : Nat) (d : Int) :
    (chrecv cb ch len d).ch = ch ∨
    (ch.items ≠ 0 ∧ ∃ chcl rest, ch.outW = chcl :: rest ∧
        (chrecv cb ch len d).ch
          = { ch with buf := ch.buf.set
                        (((ch.first + 1) % ch.bufsz + (ch.items - 1)) % ch.bufsz) chcl.val,
                      first := (ch.first + 1) % ch.bufsz, items := ch.items - 1 + 1,
                      outW := rest }) ∨
    (ch.items ≠ 0 ∧ ch.outW = [] ∧
        (chrecv cb ch len d).ch
          = { ch with first := (ch.first + 1) % ch.bufsz, items := ch.items - 1 }) ∨
    (ch.items = 0 ∧ ∃ chcl rest, ch.outW = chcl :: rest ∧
        (chrecv cb ch len d).ch = { ch with outW := rest }) ∨
    (ch.items = 0 ∧ ch.outW = [] ∧
        (chrecv cb ch len d).ch = { ch with inW := ch.inW ++ [⟨[]⟩] }) := by
  unfold chrecv
  split
  · left; rfl
  · split
    · left; rfl
    · split
      · rename_i hne
        split
        · rename_i chcl rest heq
          right; left; exact ⟨hne, chcl, rest, heq, rfl⟩
        · rename_i heq
          right; right; left; exact ⟨hne, heq, rfl⟩
      · rename_i hne
        have hz : ch.items = 0 := by omega
        split
        · rename_i chcl rest heq
          right; right; right; left; exact ⟨hz, chcl, rest, heq, rfl⟩
        · rename_i heq
          split
          · left; rfl
          · split
            · left; rfl
            · right; right; right; right; exact ⟨hz, heq, rfl⟩

/-- Case analysis of the channel state chdone leaves behind. -/
theorem chdone_ch_cases (ch : Chan) :
    (chdone ch).ch = ch ∨
    (chdone ch).ch = { ch with done := true, inW := [], outW := [] } := by
  unfold chdone
  split
  · left; rfl
  · right; rfl

/-- Case analysis of a fired CHSEND arm of choose. -/
theorem execSend_cases (env : List Chan) (ch : Chan) (h i : Nat) (v : Msg) :
    (ch.done = true ∧ execSend env ch h i v = ⟨i, some EPIPE, env, [], none, []⟩) ∨
    (ch.done = false ∧ ∃ chcl rest, ch.inW = chcl :: rest ∧
        execSend env ch h i v
          = ⟨i, some 0, env.set h { ch with inW := rest }, [⟨chcl, some v, 0⟩], none, []⟩) ∨
    (ch.done = false ∧ ch.inW = [] ∧
        execSend env ch h i v
          = ⟨i, some 0,
              env.set h { ch with buf := ch.buf.set ((ch.first + ch.items) % ch.bufsz) v,
                                  items := ch.items + 1 },
              [], none, [ch.bufsz]⟩) := by
  unfold execSend
  split
  · rename_i hd
    left; exact ⟨hd, rfl⟩
  · rename_i hd
    rw [Bool.not_eq_true] at hd
    split
    · rename_i chcl rest heq
      right; left; exact ⟨hd, chcl, rest, heq, rfl⟩
    · rename_i heq
      right; right; exact ⟨hd, heq, rfl⟩

/-- Case analysis of a fired CHRECV arm of choose. -/
theorem execRecv_cases (env : List Chan) (ch : Chan) (h i : Nat) :
    (ch.done = true ∧ ch.items = 0 ∧
        execRecv env ch h i = ⟨i, some EPIPE, env, [], none, []⟩) ∨
    (¬(ch.done = true ∧ ch.items = 0) ∧ ch.items = 0 ∧
        ∃ chcl rest, ch.outW = chcl :: rest ∧
        execRecv env ch h i
          = ⟨i, some 0, env.set h { ch with outW := rest }, [⟨chcl, none, 0⟩],
              some chcl.val, []⟩) ∨
    (¬(ch.done = true ∧ ch.items = 0) ∧ ch.items = 0 ∧ ch.outW = [] ∧
        execRecv env ch h i = ⟨i, some 0, env, [], none, []⟩) ∨
    (ch.items ≠ 0 ∧ ∃ chcl rest, ch.outW = chcl :: rest ∧
        execRecv env ch h i
          = ⟨i, some 0,
              env.set h
                { ch with
                    buf := ch.buf.set
                      (((ch.first + 1) % ch.bufsz + (ch.items - 1)) % ch.bufsz) chcl.val,
                    first := (ch.first + 1) % ch.bufsz, items := ch.items - 1 + 1,
                    outW := rest },
              [⟨chcl, none, 0⟩], some (ch.buf.getD ch.first []), [ch.bufsz, ch.bufsz]⟩) ∨
    (ch.items ≠ 0 ∧ ch.outW = [] ∧
        execRecv env ch h i
          = ⟨i, some 0, env.set h { ch with first := (ch.first + 1) % ch.bufsz,
                                            items := ch.items - 1 },
              [], some (ch.buf.getD ch.first []), [ch.bufsz]⟩) := by
  unfold execRecv
  split
  · rename_i hd
    left; exact ⟨hd.1, hd.2, rfl⟩
  · rename_i hd
    split
    · rename_i hz
      split
      · rename_i chcl rest heq
        right; left; exact ⟨hd, hz, chcl, rest, heq, rfl⟩
      · rename_i heq
        right; right; left; exact ⟨hd, hz, heq, rfl⟩
    · rename_i hz
      split
      · rename_i chcl rest heq
        right; right; right; left; exact ⟨hz, chcl, rest, heq, rfl⟩
      · rename_i heq
        right; right; right; right; exact ⟨hz, heq, rfl⟩

theorem chsend_items_le (cb : Bool) (ch : Chan) (v : Msg) (len : Nat) (d : Int)
    (hb : ch.items ≤ ch.bufsz) :
    (chsend cb ch v len d).ch.items ≤ (chsend cb ch v len d).ch.bufsz := by
  rcases chsend_ch_cases cb ch v len d with h | ⟨chcl, rest, _, h⟩ | ⟨_, hlt, h⟩ | ⟨_, h⟩ <;>
    rw [h]
  · exact hb
  · exact hb
  · show ch.items + 1 ≤ ch.bufsz
    omega
  · exact hb

theorem chrecv_items_le (cb : Bool) (ch : Chan) (len : Nat) (d : Int)
    (hb : ch.items ≤ ch.bufsz) :
    (chrecv cb ch len d).ch.items ≤ (chrecv cb ch len d).ch.bufsz := by
  rcases chrecv_ch_cases cb ch len d with
    h | ⟨_, chcl, rest, _, h⟩ | ⟨_, _, h⟩ | ⟨_, chcl, rest, _, h⟩ | ⟨_, _, h⟩ <;> rw [h]
  · exact hb
  · show ch.items - 1 + 1 ≤ ch.bufsz
    omega
  · show ch.items - 1 ≤ ch.bufsz
    omega
  · exact hb
  · exact hb

theorem chdone_items_le (ch : Chan) (hb : ch.items ≤ ch.bufsz) :
    (chdone ch).ch.items ≤ (chdone ch).ch.bufsz := by
  rcases chdone_ch_cases ch with h | h <;> rw [h] <;> exact hb

theorem chsend_I1 (cb : Bool) (ch : Chan) (v : Msg) (len : Nat) (d : Int)
    (h1 : ch.inW = [] ∨ ch.outW = []) :
    (chsend cb ch v len d).ch.inW = [] ∨ (chsend cb ch v len d).ch.outW = [] := by
  rcases chsend_ch_cases cb ch v len d with h | ⟨chcl, rest, hin, h⟩ | ⟨_, _, h⟩ | ⟨hin, h⟩ <;>
    rw [h]
  · exact h1
  · rcases h1 with hi | ho
    · rw [hin] at hi; cases hi
    · right; exact ho
  · exact h1
  · left; exact hin

theorem chrecv_I1 (cb : Bool) (ch : Chan) (len : Nat) (d : Int)
    (h1 : ch.inW = [] ∨ ch.outW = []) :
    (chrecv cb ch len d).ch.inW = [] ∨ (chrecv cb ch len d).ch.outW = [] := by
  rcases chrecv_ch_cases cb ch len d with
    h | ⟨_, chcl, rest, hout, h⟩ | ⟨_, _, h⟩ | ⟨_, chcl, rest, hout, h⟩ | ⟨_, hout, h⟩ <;> rw [h]
  · exact h1
  · rcases h1 with hi | ho
    · left; exact hi
    · rw [hout] at ho; cases ho
  · exact h1
  · rcases h1 with hi | ho
    · left; exact hi
    · rw [hout] at ho; cases ho
  · right; exact hout

theorem chdone_I1 (ch : Chan) (h1 : ch.inW = [] ∨ ch.outW = []) :
    (chdone ch).ch.inW = [] ∨ (chdone ch).ch.outW = [] := by
  rcases chdone_ch_cases ch with h | h <;> rw [h]
  · exact h1
  · left; rfl

/-- Every channel of the environment left behind by an early return of the
polling loop keeps occupancy within capacity. -/
theorem chooseLoop_env_items (env : List Chan)
    (hP : ∀ c ∈ env, c.items ≤ c.bufsz) :
    ∀ (cls : List Chclause) (i : Nat) (r : LoopRes),
      chooseLoop env cls i = some r → ∀ c ∈ r.env, c.items ≤ c.bufsz := by
  intro cls
  induction cls with
  | nil => intro i r hr; cases hr
  | cons cl0 rest ih =>
    intro i r hr c hc
    cases hch : env[cl0.ch]? with
    | none =>
      simp only [chooseLoop, hch] at hr
      cases hr
      exact hP c hc
    | some ch =>
      have hchm : ch ∈ env := List.getElem?_mem hch
      simp only [chooseLoop, hch] at hr
      by_cases hbad : cl0.len ≠ ch.sz ∨ (cl0.len > 0 ∧ cl0.val = none)
      · rw [if_pos hbad] at hr
        cases hr
        exact hP c hc
      · rw [if_neg hbad] at hr
        cases hcop : cl0.op with
        | CHOTHER =>
          rw [hcop] at hr
          cases hr
          exact hP c hc
        | CHSEND =>
          rw [hcop] at hr
          by_cases hfs : firesS ch
          · rw [if_pos hfs] at hr
            cases hr
            rcases execSend_cases env ch cl0.ch i (cl0.val.getD []) with
              ⟨_, he⟩ | ⟨_, chcl, rest2, _, he⟩ | ⟨hd, hin, he⟩ <;> rw [he] at hc
            · exact hP c hc
            · rcases List.mem_or_eq_of_mem_set hc with hm | rfl
              · exact hP c hm
              · exact hP ch hchm
            · rcases List.mem_or_eq_of_mem_set hc with hm | rfl
              · exact hP c hm
              · show ch.items + 1 ≤ ch.bufsz
                rcases hfs with hlt | hin2 | hd2
                · omega
                · exact absurd hin hin2
                · rw [hd] at hd2; cases hd2
          · rw [if_neg hfs] at hr
            exact ih (i + 1) r hr c hc
        | CHRECV =>
          rw [hcop] at hr
          by_cases hfr : firesR ch
          · rw [if_pos hfr] at hr
            cases hr
            have hb := hP ch hchm
            rcases execRecv_cases env ch cl0.ch i with
              ⟨_, _, he⟩ | ⟨_, _, chcl, rest2, _, he⟩ | ⟨_, _, _, he⟩ |
              ⟨_, chcl, rest2, _, he⟩ | ⟨_, _, he⟩ <;> rw [he] at hc
            · exact hP c hc
            · rcases List.mem_or_eq_of_mem_set hc with hm | rfl
              · exact hP c hm
              · exact hb
            · exact hP c hc
            · rcases List.mem_or_eq_of_mem_set hc with hm | rfl
              · exact hP c hm
              · show ch.items - 1 + 1 ≤ ch.bufsz
                omega
            · rcases List.mem_or_eq_of_mem_set hc with hm | rfl
              · exact hP c hm
              · show ch.items - 1 ≤ ch.bufsz
                omega
          · rw [if_neg hfr] at hr
            exact ih (i + 1) r hr c hc

/-- Every channel of the environment left behind by an early return of the
polling loop keeps waiter exclusion. -/
theorem chooseLoop_env_I1 (env : List Chan)
    (hP : ∀ c ∈ env, c.inW = [] ∨ c.outW = []) :
    ∀ (cls : List Chclause) (i : Nat) (r : LoopRes),
      chooseLoop env cls i = some r → ∀ c ∈ r.env, c.inW = [] ∨ c.outW = [] := by
  intro cls
  induction cls with
  | nil => intro i r hr; cases hr
  | cons cl0 rest ih =>
    intro i r hr c hc
    cases hch : env[cl0.ch]? with
    | none =>
      simp only [chooseLoop, hch] at hr
      cases hr
      exact hP c hc
    | some ch =>
      have hchm : ch ∈ env := List.getElem?_mem hch
      simp only [chooseLoop, hch] at hr
      by_cases hbad : cl0.len ≠ ch.sz ∨ (cl0.len > 0 ∧ cl0.val = none)
      · rw [if_pos hbad] at hr
        cases hr
        exact hP c hc
      · rw [if_neg hbad] at hr
        cases hcop : cl0.op with
        | CHOTHER =>
          rw [hcop] at hr
          cases hr
          exact hP c hc
        | CHSEND =>
          rw [hcop] at hr
          by_cases hfs : firesS ch
          · rw [if_pos hfs] at hr
            cases hr
            rcases execSend_cases env ch cl0.ch i (cl0.val.getD []) with
              ⟨_, he⟩ | ⟨_, chcl, rest2, hin, he⟩ | ⟨_, hin, he⟩ <;> rw [he] at hc
            · exact hP c hc
            · rcases List.mem_or_eq_of_mem_set hc with hm | rfl
              · exact hP c hm
              · rcases hP ch hchm with hi | ho
                · rw [hin] at hi; cases hi
                · right; exact ho
            · rcases List.mem_or_eq_of_mem_set hc with hm | rfl
              · exact hP c hm
              · exact hP ch hchm
          · rw [if_neg hfs] at hr
            exact ih (i + 1) r hr c hc
        | CHRECV =>
          rw [hcop] at hr
          by_cases hfr : firesR ch
          · rw [if_pos hfr] at hr
            cases hr
            rcases execRecv_cases env ch cl0.ch i with
              ⟨_, _, he⟩ | ⟨_, _, chcl, rest2, hout, he⟩ | ⟨_, _, _, he⟩ |
              ⟨_, chcl, rest2, hout, he⟩ | ⟨_, hout, he⟩ <;> rw [he] at hc
            · exact hP c hc
            · rcases List.mem_or_eq_of_mem_set hc with hm | rfl
              · exact hP c hm
              · rcases hP ch hchm with hi | ho
                · left; exact hi
                · rw [hout] at ho; cases ho
            · exact hP c hc
            · rcases List.mem_or_eq_of_mem_set hc with hm | rfl
              · exact hP c hm
              · rcases hP ch hchm with hi | ho
                · left; exact hi
                · rw [hout] at ho; cases ho
            · rcases List.mem_or_eq_of_mem_set hc with hm | rfl
              · exact hP c hm
              · exact hP ch hchm
          · rw [if_neg hfr] at hr
            exact ih (i + 1) r hr c hc

/-- Every modulo divisor recorded by an early return of the polling loop is
positive (no modulo-by-zero). -/
theorem chooseLoop_mods_pos (env : List Chan)
    (hP : ∀ c ∈ env, c.items ≤ c.bufsz) :
    ∀ (cls : List Chclause) (i : Nat) (r : LoopRes),
      chooseLoop env cls i = some r → 0 ∉ r.mods := by
  intro cls
  induction cls with
  | nil => intro i r hr; cases hr
  | cons cl0 rest ih =>
    intro i r hr
    cases hch : env[cl0.ch]? with
    | none =>
      simp only [chooseLoop, hch] at hr
      cases hr
      simp
    | some ch =>
      have hchm : ch ∈ env := List.getElem?_mem hch
      simp only [chooseLoop, hch] at hr
      by_cases hbad : cl0.len ≠ ch.sz ∨ (cl0.len > 0 ∧ cl0.val = none)
      · rw [if_pos hbad] at hr
        cases hr
        simp
      · rw [if_neg hbad] at hr
        cases hcop : cl0.op with
        | CHOTHER =>
          rw [hcop] at hr
          cases hr
          simp
        | CHSEND =>
          rw [hcop] at hr
          by_cases hfs : firesS ch
          · rw [if_pos hfs] at hr
            cases hr
            rcases execSend_cases env ch cl0.ch i (cl0.val.getD []) with
              ⟨_, he⟩ | ⟨_, chcl, rest2, hin, he⟩ | ⟨hd, hin, he⟩ <;> rw [he]
            · simp
            · simp
            · have hlt : ch.items < ch.bufsz := by
                rcases hfs with hlt | hin2 | hd2
                · exact hlt
                · exact absurd hin hin2
                · rw [hd] at hd2; cases hd2
              show 0 ∉ [ch.bufsz]
              simp
              omega
          · rw [if_neg hfs] at hr
            exact ih (i + 1) r hr
        | CHRECV =>
          rw [hcop] at hr
          by_cases hfr : firesR ch
          · rw [if_pos hfr] at hr
            cases hr
            have hb := hP ch hchm
            rcases execRecv_cases env ch cl0.ch i with
              ⟨_, _, he⟩ | ⟨_, _, chcl, rest2, _, he⟩ | ⟨_, _, _, he⟩ |
              ⟨hne, chcl, rest2, _, he⟩ | ⟨hne, _, he⟩ <;> rw [he]
            · simp
            · simp
            · simp
            · show 0 ∉ [ch.bufsz, ch.bufsz]
              simp
              omega
            · show 0 ∉ [ch.bufsz]
              simp
              omega
          · rw [if_neg hfr] at hr
            exact ih (i + 1) r hr

theorem parksIn_exists (n : Nat) :
    ∀ cls : List Chclause, parksIn n cls ≠ [] →
      ∃ cl ∈ cls, cl.ch = n ∧ cl.op = ChanOp.CHRECV := by
  intro cls
  induction cls with
  | nil => intro h; exact absurd rfl h
  | cons cl rest ih =>
    intro h
    rw [parksIn] at h
    split at h
    · rename_i hcond
      exact ⟨cl, List.mem_cons_self cl rest, hcond⟩
    · obtain ⟨cl', hm, hp⟩ := ih h
      exact ⟨cl', List.mem_cons_of_mem _ hm, hp⟩

theorem parksOut_exists (n : Nat) :
    ∀ cls : List Chclause, parksOut n cls ≠ [] →
      ∃ cl ∈ cls, cl.ch = n ∧ cl.op ≠ ChanOp.CHRECV := by
  intro cls
  induction cls with
  | nil => intro h; exact absurd rfl h
  | cons cl rest ih =>
    intro h
    rw [parksOut] at h
    split at h
    · rename_i hcond
      exact ⟨cl, List.mem_cons_self cl rest, hcond⟩
    · obtain ⟨cl', hm, hp⟩ := ih h
      exact ⟨cl', List.mem_cons_of_mem _ hm, hp⟩

theorem parksOut_nil (n : Nat) :
    ∀ cls : List Chclause, (∀ cl ∈ cls, ¬(cl.ch = n ∧ cl.op ≠ ChanOp.CHRECV)) →
      parksOut n cls = [] := by
  intro cls
  induction cls with
  | nil => intro _; rfl
  | cons cl rest ih =>
    intro h
    rw [parksOut, if_neg (h cl (List.mem_cons_self cl rest))]
    exact ih (fun cl' hm => h cl' (List.mem_cons_of_mem _ hm))

theorem validCl_op (env : List Chan) (cl : Chclause) (c0 : Chan)
    (hch : env[cl.ch]? = some c0) (hv : validCl env cl) :
    cl.op = ChanOp.CHSEND ∨ cl.op = ChanOp.CHRECV := by
  simp only [validCl, hch] at hv
  cases h : cl.op with
  | CHSEND => left; rfl
  | CHRECV => right; rfl
  | CHOTHER => exact absurd h hv.2.2

theorem not_fires_send (env : List Chan) (cl : Chclause) (c0 : Chan)
    (hch : env[cl.ch]? = some c0) (hop : cl.op = ChanOp.CHSEND)
    (hnf : ¬ firesCl env cl) :
    c0.inW = [] ∧ c0.bufsz ≤ c0.items ∧ c0.done ≠ true := by
  simp only [firesCl, hch, hop] at hnf
  unfold firesS at hnf
  push_neg at hnf
  exact ⟨hnf.2.1, hnf.1, hnf.2.2⟩

theorem not_fires_recv (env : List Chan) (cl : Chclause) (c0 : Chan)
    (hch : env[cl.ch]? = some c0) (hop : cl.op = ChanOp.CHRECV)
    (hnf : ¬ firesCl env cl) :
    c0.items = 0 ∧ c0.outW = [] ∧ c0.done ≠ true := by
  simp only [firesCl, hch, hop] at hnf
  unfold firesR at hnf
  push_neg at hnf
  exact ⟨hnf.1, hnf.2.1, hnf.2.2⟩

/-- Occupancy bounds survive a parking pass (only waiter lists change). -/
theorem parkAll_items (env : List Chan) (cls : List Chclause)
    (hP : ∀ c ∈ env, c.items ≤ c.bufsz) :
    ∀ c ∈ parkAll env cls, c.items ≤ c.bufsz := by
  intro c hc
  obtain ⟨n, c0, hn, hmem, rfl⟩ := parkAll_mem_shape env cls c hc
  exact hP c0 hmem

/-- Waiter exclusion survives a parking pass whose clauses are all valid,
all non-firing, and direction-consistent. -/
theorem parkAll_I1 (env : List Chan) (cls : List Chclause)
    (hP : ∀ c ∈ env, c.inW = [] ∨ c.outW = [])
    (hnf : ∀ cl ∈ cls, validCl env cl ∧ ¬ firesCl env cl)
    (hdir : DirConsistent cls) :
    ∀ c ∈ parkAll env cls, c.inW = [] ∨ c.outW = [] := by
  intro c hc
  obtain ⟨n, c0, hn, hmem, rfl⟩ := parkAll_mem_shape env cls c hc
  show c0.inW ++ parksIn n cls = [] ∨ c0.outW ++ parksOut n cls = []
  by_cases hin : parksIn n cls = []
  · by_cases hinW : c0.inW = []
    · left
      rw [hinW, hin]
      rfl
    · right
      have houtW : c0.outW = [] := (hP c0 hmem).resolve_left hinW
      have hout : parksOut n cls = [] := by
        by_contra hne
        obtain ⟨cl, hm, hch, hop⟩ := parksOut_exists n cls hne
        obtain ⟨hv, hnf'⟩ := hnf cl hm
        have hch' : env[cl.ch]? = some c0 := by rw [hch]; exact hn
        rcases validCl_op env cl c0 hch' hv with hops | hops
        · obtain ⟨hi, _, _⟩ := not_fires_send env cl c0 hch' hops hnf'
          exact hinW hi
        · exact hop hops
      rw [houtW, hout]
      rfl
  · right
    obtain ⟨cl, hm, hch, hop⟩ := parksIn_exists n cls hin
    obtain ⟨hv, hnf'⟩ := hnf cl hm
    have hch' : env[cl.ch]? = some c0 := by rw [hch]; exact hn
    obtain ⟨_, houtW, _⟩ := not_fires_recv env cl c0 hch' hop hnf'
    have hout : parksOut n cls = [] := by
      apply parksOut_nil
      intro cl2 hm2 hcon
      have heq := hdir cl2 hm2 cl hm (by rw [hcon.1, hch])
      exact hcon.2 (heq.trans hop)
    rw [houtW, hout]
    rfl

/-- In every reachable environment, each channel's occupancy stays within
its capacity (the count invariant `0 ≤ count ≤ capacity`). -/
theorem reachable_items_le (env : List Chan) (h : Reachable env) :
    ∀ c ∈ env, c.items ≤ c.bufsz := by
  induction h with
  | nil => intro c hc; cases hc
  | step e e' hr hs ih =>
    cases hs with
    | create sz bufsz =>
      intro c hc
      rcases List.mem_append.mp hc with hm | hm
      · exact ih c hm
      · have hce : c = mkChan sz bufsz := by simpa using hm
        rw [hce]
        show (0 : Nat) ≤ bufsz
        omega
    | send hh cb v len d =>
      intro c hc
      unfold sendStep at hc
      cases hch : e[hh]? with
      | none => rw [hch] at hc; exact ih c hc
      | some ch =>
        rw [hch] at hc
        rcases List.mem_or_eq_of_mem_set hc with hm | rfl
        · exact ih c hm
        · exact chsend_items_le cb ch v len d (ih ch (List.getElem?_mem hch))
    | recv hh cb len d =>
      intro c hc
      unfold recvStep at hc
      cases hch : e[hh]? with
      | none => rw [hch] at hc; exact ih c hc
      | some ch =>
        rw [hch] at hc
        rcases List.mem_or_eq_of_mem_set hc with hm | rfl
        · exact ih c hm
        · exact chrecv_items_le cb ch len d (ih ch (List.getElem?_mem hch))
    | done hh =>
      intro c hc
      unfold doneStep at hc
      cases hch : e[hh]? with
      | none => rw [hch] at hc; exact ih c hc
      | some ch =>
        rw [hch] at hc
        rcases List.mem_or_eq_of_mem_set hc with hm | rfl
        · exact ih c hm
        · exact chdone_items_le ch (ih ch (List.getElem?_mem hch))
    | choice cb clauses ncl d =>
      intro c hc
      unfold choose at hc
      split at hc
      · exact ih c hc
      · split at hc
        · exact ih c hc
        · split at hc
          · rename_i r hr
            exact chooseLoop_env_items e ih _ 0 r hr c hc
          · rename_i hr
            split at hc
            · exact ih c hc
            · exact parkAll_items e _ ih c hc

/-- In every environment reachable through direction-consistent choose
calls, no channel ever has both waiter lists non-empty. -/
theorem reachableG_I1 (env : List Chan) (h : ReachableG env) :
    ∀ c ∈ env, c.inW = [] ∨ c.outW = [] := by
  induction h with
  | nil => intro c hc; cases hc
  | step e e' hr hs ih =>
    cases hs with
    | create sz bufsz =>
      intro c hc
      rcases List.mem_append.mp hc with hm | hm
      · exact ih c hm
      · have hce : c = mkChan sz bufsz := by simpa using hm
        rw [hce]
        left
        rfl
    | send hh cb v len d =>
      intro c hc
      unfold sendStep at hc
      cases hch : e[hh]? with
      | none => rw [hch] at hc; exact ih c hc
      | some ch =>
        rw [hch] at hc
        rcases List.mem_or_eq_of_mem_set hc with hm | rfl
        · exact ih c hm
        · exact chsend_I1 cb ch v len d (ih ch (List.getElem?_mem hch))
    | recv hh cb len d =>
      intro c hc
      unfold recvStep at hc
      cases hch : e[hh]? with
      | none => rw [hch] at hc; exact ih c hc
      | some ch =>
        rw [hch] at hc
        rcases List.mem_or_eq_of_mem_set hc with hm | rfl
        · exact ih c hm
        · exact chrecv_I1 cb ch len d (ih ch (List.getElem?_mem hch))
    | done hh =>
      intro c hc
      unfold doneStep at hc
      cases hch : e[hh]? with
      | none => rw [hch] at hc; exact ih c hc
      | some ch =>
        rw [hch] at hc
        rcases List.mem_or_eq_of_mem_set hc with hm | rfl
        · exact ih c hm
        · exact chdone_I1 ch (ih ch (List.getElem?_mem hch))
    | choice cb clauses ncl d hdir =>
      intro c hc
      unfold choose at hc
      split at hc
      · exact ih c hc
      · split at hc
        · exact ih c hc
        · split at hc
          · rename_i r hr
            exact chooseLoop_env_I1 e ih _ 0 r hr c hc
          · rename_i hr
            split at hc
            · exact ih c hc
            · exact parkAll_I1 e _ ih (chooseLoop_none_forall e _ 0 hr) hdir c hc

theorem chsend_mods_pos (cb : Bool) (c : Chan) (v : Msg) (len : Nat) (d : Int) :
    0 ∉ (chsend cb c v len d).mods := by
  unfold chsend
  split
  · simp
  · split
    · simp
    · split
      · simp
      · split
        · simp
        · split
          · rename_i hlt
            show 0 ∉ [c.bufsz]
            simp
            omega
          · split
            · simp
            · simp

theorem chsend_mods_bufsz0 (cb : Bool) (c : Chan) (v : Msg) (len : Nat) (d : Int)
    (hz : c.bufsz = 0) : (chsend cb c v len d).mods = [] := by
  unfold chsend
  split
  · rfl
  · split
    · rfl
    · split
      · rfl
      · split
        · rfl
        · split
          · rename_i hlt
            omega
          · split
            · rfl
            · rfl

theorem chrecv_mods_pos (cb : Bool) (c : Chan) (len : Nat) (d : Int)
    (hb : c.items ≤ c.bufsz) : 0 ∉ (chrecv cb c len d).mods := by
  unfold chrecv
  split
  · simp
  · split
    · simp
    · split
      · rename_i hne
        split
        · show 0 ∉ [c.bufsz, c.bufsz]
          simp
          omega
        · show 0 ∉ [c.bufsz]
          simp
          omega
      · split
        · simp
        · split
          · simp
          · split
            · simp
            · simp

theorem chrecv_mods_bufsz0 (cb : Bool) (c : Chan) (len : Nat) (d : Int)
    (hb : c.items ≤ c.bufsz) (hz : c.bufsz = 0) : (chrecv cb c len d).mods = [] := by
  unfold chrecv
  split
  · rfl
  · split
    · rfl
    · split
      · rename_i hne
        omega
      · split
        · rfl
        · split
          · rfl
          · split
            · rfl
            · rfl

/-- Claim C2 counterexample: starting from a freshly created unbuffered
channel, the single top-level call
`choose([send ch, recv ch], deadline = -1)` finds no clause ready, parks a
sub-clause on both waiter lists of the same channel, and leaves a reachable
state in which `send_waiters` and `recv_waiters` are simultaneously
non-empty — refuting I1/P1 as claimed. -/
theorem c2_counterexample :
    Reachable (choose true [mkChan 1 0]
        (some [⟨0, ChanOp.CHSEND, some [5], 1⟩, ⟨0, ChanOp.CHRECV, some [0], 1⟩])
        2 (-1)).env ∧
    ((choose true [mkChan 1 0]
        (some [⟨0, ChanOp.CHSEND, some [5], 1⟩, ⟨0, ChanOp.CHRECV, some [0], 1⟩])
        2 (-1)).env.getD 0 default).inW ≠ [] ∧
    ((choose true [mkChan 1 0]
        (some [⟨0, ChanOp.CHSEND, some [5], 1⟩, ⟨0, ChanOp.CHRECV, some [0], 1⟩])
        2 (-1)).env.getD 0 default).outW ≠ [] := by
  refine ⟨?_, by decide, by decide⟩
  have h1 : Reachable [mkChan 1 0] :=
    Reachable.step [] [mkChan 1 0] Reachable.nil (Step.create [] 1 0)
  exact Reachable.step _ _ h1
    (Step.choice [mkChan 1 0] true
      (some [⟨0, ChanOp.CHSEND, some [5], 1⟩, ⟨0, ChanOp.CHRECV, some [0], 1⟩]) 2 (-1))

/-- Claim C2, amended: waiter exclusion (I1/P1) holds between top-level
operations for every execution in which no single choose call carries both
a send-clause and a receive-clause targeting the same channel; the
counterexample above shows the restriction is necessary. -/
theorem c2_amended_waiter_exclusion (env : List Chan) (h : ReachableG env)
    (c : Chan) (hc : c ∈ env) : c.inW = [] ∨ c.outW = [] :=
  reachableG_I1 env h c hc

/-- Witness for the amended C2 at a one-channel environment. -/
theorem c2_witness : (mkChan 1 1).inW = [] ∨ (mkChan 1 1).outW = [] :=
  c2_amended_waiter_exclusion [mkChan 1 1]
    (ReachableG.step [] [mkChan 1 1] ReachableG.nil (StepG.create [] 1 1))
    (mkChan 1 1) (by simp)

/-- Claim C9: in every reachable environment, every modulo-by-capacity the
code executes (recorded in `mods`) has a positive divisor — each `% bufsz`
sits under a guard (`items < bufsz`, or `items ≠ 0` together with the count
invariant `items ≤ bufsz`) that forces `bufsz > 0` — and on a capacity-0
channel send/recv take no buffer path at all (no modulo is executed). -/
theorem c9_no_mod_by_zero (env : List Chan) (hr : Reachable env)
    (h : Nat) (c : Chan) (hc : env[h]? = some c) :
    (∀ (cb : Bool) (v : Msg) (len : Nat) (d : Int),
        0 ∉ (chsend cb c v len d).mods ∧ 0 ∉ (chrecv cb c len d).mods ∧
        (c.bufsz = 0 →
          (chsend cb c v len d).mods = [] ∧ (chrecv cb c len d).mods = [])) ∧
    (∀ (cb : Bool) (clauses : Option (List Chclause)) (ncl d : Int),
        0 ∉ (choose cb env clauses ncl d).mods) := by
  have hb := reachable_items_le env hr c (List.getElem?_mem hc)
  constructor
  · intro cb v len d
    exact ⟨chsend_mods_pos cb c v len d, chrecv_mods_pos cb c len d hb,
      fun hz => ⟨chsend_mods_bufsz0 cb c v len d hz, chrecv_mods_bufsz0 cb c len d hb hz⟩⟩
  · intro cb clauses ncl d
    unfold choose
    split
    · simp
    · split
      · simp
      · split
        · rename_i r hr2
          exact chooseLoop_mods_pos env (reachable_items_le env hr) _ 0 r hr2
        · split
          · simp
          · simp

/-- Witness for C9 at a concrete reachable one-channel environment. -/
theorem c9_witness : 0 ∉ (chsend true (mkChan 1 1) [5] 1 0).mods :=
  ((c9_no_mod_by_zero [mkChan 1 1]
      (Reachable.step [] [mkChan 1 1] Reachable.nil (Step.create [] 1 1))
      0 (mkChan 1 1) (by simp)).1 true [5] 1 0).1

theorem set_getElem?_self {α : Type} :
    ∀ (l : List α) (n : Nat) (a : α), l[n]? = some a → l.set n a = l := by
  intro l
  induction l with
  | nil => intro n a h; simp at h
  | cons x t ih =>
    intro n a h
    cases n with
    | zero =>
      simp at h
      show a :: t = x :: t
      rw [h]
    | succ m =>
      simp at h
      show x :: t.set m a = x :: t
      rw [ih m a h]

/-- A fired send arm of choose behaves exactly as chsend on the clause's
channel, except that it also writes errno (0 on success, EPIPE if done). -/
theorem execSend_eq_chsend (env : List Chan) (ch : Chan) (h i : Nat) (v : Msg)
    (d : Int) (hch : env[h]? = some ch) (hfs : firesS ch) :
    execSend env ch h i v
      = ⟨i, errnoOfOut (chsend true ch v ch.sz d).out,
          env.set h (chsend true ch v ch.sz d).ch,
          (chsend true ch v ch.sz d).evs, (chsend true ch v ch.sz d).recvd,
          (chsend true ch v ch.sz d).mods⟩ := by
  by_cases hd : ch.done = true
  · have hset := set_getElem?_self env h ch hch
    simp [execSend, chsend, hd, errnoOfOut, hset]
  · cases hin : ch.inW with
    | cons chcl rest => simp [execSend, chsend, hd, hin, errnoOfOut]
    | nil =>
      have hlt : ch.items < ch.bufsz := by
        rcases hfs with hlt | hin2 | hd2
        · exact hlt
        · exact absurd hin hin2
        · exact absurd hd2 hd
      simp [execSend, chsend, hd, hin, hlt, errnoOfOut]

/-- A fired receive arm of choose behaves exactly as chrecv on the clause's
channel (given invariant I4: a done channel has no parked sender), except
that it also writes errno. -/
theorem execRecv_eq_chrecv (env : List Chan) (ch : Chan) (h i : Nat) (d : Int)
    (hch : env[h]? = some ch) (hfr : firesR ch)
    (hI4 : ch.done = true → ch.outW = []) :
    execRecv env ch h i
      = ⟨i, errnoOfOut (chrecv true ch ch.sz d).out,
          env.set h (chrecv true ch ch.sz d).ch,
          (chrecv true ch ch.sz d).evs, (chrecv true ch ch.sz d).recvd,
          (chrecv true ch ch.sz d).mods⟩ := by
  by_cases hz : ch.items = 0
  · by_cases hd : ch.done = true
    · have hout := hI4 hd
      have hset := set_getElem?_self env h ch hch
      simp [execRecv, chrecv, hz, hd, hout, errnoOfOut, hset]
    · cases hout : ch.outW with
      | nil =>
        rcases hfr with h1 | h2 | h3
        · exact absurd hz h1
        · exact absurd hout h2
        · exact absurd h3 hd
      | cons chcl rest =>
        simp [execRecv, chrecv, hz, hd, hout, errnoOfOut]
  · cases hout : ch.outW with
    | nil => simp [execRecv, chrecv, hz, hout, errnoOfOut]
    | cons chcl rest => simp [execRecv, chrecv, hz, hout, errnoOfOut]

/-- A valid, firing CHSEND head clause makes the loop return its executed
send arm. -/
theorem chooseLoop_fire_head_send (env : List Chan) (cl : Chclause)
    (rest : List Chclause) (i : Nat) (ch : Chan) (hch : env[cl.ch]? = some ch)
    (hv : validCl env cl) (hop : cl.op = ChanOp.CHSEND) (hfs : firesS ch) :
    chooseLoop env (cl :: rest) i = some (execSend env ch cl.ch i (cl.val.getD [])) := by
  simp only [validCl, hch] at hv
  simp only [chooseLoop, hch]
  rw [if_neg (by
    intro hbad
    rcases hbad with hb | hb
    · exact hb hv.1
    · exact hv.2.1 hb)]
  rw [hop, if_pos hfs]

/-- A valid, firing CHRECV head clause makes the loop return its executed
receive arm. -/
theorem chooseLoop_fire_head_recv (env : List Chan) (cl : Chclause)
    (rest : List Chclause) (i : Nat) (ch : Chan) (hch : env[cl.ch]? = some ch)
    (hv : validCl env cl) (hop : cl.op = ChanOp.CHRECV) (hfr : firesR ch) :
    chooseLoop env (cl :: rest) i = some (execRecv env ch cl.ch i) := by
  simp only [validCl, hch] at hv
  simp only [chooseLoop, hch]
  rw [if_neg (by
    intro hbad
    rcases hbad with hb | hb
    · exact hb hv.1
    · exact hv.2.1 hb)]
  rw [hop, if_pos hfr]

/-- choose with a clause list whose polling loop returns early. -/
theorem choose_of_loop_some (env : List Chan) (cls : List Chclause) (d : Int)
    (r : LoopRes) (hl : chooseLoop env cls 0 = some r) :
    choose true env (some cls) cls.length d
      = ⟨.ret r.idx r.errnoW, r.env, r.evs, r.recvd, r.mods⟩ := by
  unfold choose
  rw [if_neg (by simp)]
  rw [if_neg (by
    push_neg
    refine ⟨by omega, fun _ => by simp⟩)]
  rw [show (((some cls : Option (List Chclause)).getD []).take
      ((cls.length : Int)).toNat) = cls by simp]
  rw [hl]

/-- An early loop return with EINVAL leaves the environment untouched. -/
theorem chooseLoop_einval_env (env : List Chan) :
    ∀ (cls : List Chclause) (i : Nat) (r : LoopRes),
      chooseLoop env cls i = some r → r.errnoW = some EINVAL → r.env = env := by
  intro cls
  induction cls with
  | nil => intro i r hr; cases hr
  | cons cl0 rest ih =>
    intro i r hr he
    cases hch : env[cl0.ch]? with
    | none =>
      simp only [chooseLoop, hch] at hr
      cases hr
      rfl
    | some ch =>
      simp only [chooseLoop, hch] at hr
      by_cases hbad : cl0.len ≠ ch.sz ∨ (cl0.len > 0 ∧ cl0.val = none)
      · rw [if_pos hbad] at hr
        cases hr
        rfl
      · rw [if_neg hbad] at hr
        cases hcop : cl0.op with
        | CHOTHER =>
          rw [hcop] at hr
          cases hr
          rfl
        | CHSEND =>
          rw [hcop] at hr
          by_cases hfs : firesS ch
          · rw [if_pos hfs] at hr
            cases hr
            rcases execSend_cases env ch cl0.ch i (cl0.val.getD []) with
              ⟨_, hee⟩ | ⟨_, chcl, rest2, _, hee⟩ | ⟨_, _, hee⟩ <;> rw [hee] at he ⊢ <;>
              simp [EINVAL] at he
          · rw [if_neg hfs] at hr
            exact ih (i + 1) r hr he
        | CHRECV =>
          rw [hcop] at hr
          by_cases hfr : firesR ch
          · rw [if_pos hfr] at hr
            cases hr
            rcases execRecv_cases env ch cl0.ch i with
              ⟨_, _, hee⟩ | ⟨_, _, chcl, rest2, _, hee⟩ | ⟨_, _, _, hee⟩ |
              ⟨_, chcl, rest2, _, hee⟩ | ⟨_, _, hee⟩ <;> rw [hee] at he ⊢ <;>
              simp [EINVAL] at he
          · rw [if_neg hfr] at hr
            exact ih (i + 1) r hr he

/-- Claim C6 counterexample: a send-clause on a done channel is not "ready"
under the claim's readiness definition, and a later recv-clause on a channel
holding a buffered item is; yet choose returns index 0 (the send-clause)
with EPIPE instead of executing and returning the lowest ready index 1
(src/chan.c lines 259-260 enter the send arm also when the channel is done). -/
theorem c6_counterexample :
    ¬ specSendReady (chdone (mkChan 1 0)).ch ∧
    specRecvReady (chsend true (mkChan 1 1) [7] 1 (-1)).ch ∧
    (choose true [(chdone (mkChan 1 0)).ch, (chsend true (mkChan 1 1) [7] 1 (-1)).ch]
        (some [⟨0, ChanOp.CHSEND, some [9], 1⟩, ⟨1, ChanOp.CHRECV, some [0], 1⟩])
        2 (-1)).out = .ret 0 (some EPIPE) := by
  refine ⟨by decide, by decide, by decide⟩

/-- Claim C6, amended: the polling phase is deterministic in clause order,
where a send-clause triggers an early return iff the buffer has room, a
receiver is waiting, or the channel is done (surfacing EPIPE), and a
recv-clause iff a buffered item exists, a sender is waiting, or the channel
is done; the first triggering clause (all earlier ones valid and
non-triggering) is executed exactly as chsend/chrecv would execute it, its
index is returned, and errno is 0 on clean delivery or EPIPE on a done
channel. -/
theorem c6_amended_poll_order (env : List Chan) (cls : List Chclause) (d : Int)
    (i : Nat) (cl : Chclause) (ch : Chan)
    (hget : cls[i]? = some cl) (hch : env[cl.ch]? = some ch)
    (hpre : ∀ j, j < i → ∀ cl', cls[j]? = some cl' → validCl env cl' ∧ ¬ firesCl env cl')
    (hv : validCl env cl) (hf : firesCl env cl)
    (hI4 : ch.done = true → ch.outW = []) :
    (cl.op = ChanOp.CHSEND →
        choose true env (some cls) cls.length d
          = ⟨.ret i (errnoOfOut (chsend true ch (cl.val.getD []) ch.sz d).out),
              env.set cl.ch (chsend true ch (cl.val.getD []) ch.sz d).ch,
              (chsend true ch (cl.val.getD []) ch.sz d).evs,
              (chsend true ch (cl.val.getD []) ch.sz d).recvd,
              (chsend true ch (cl.val.getD []) ch.sz d).mods⟩) ∧
    (cl.op = ChanOp.CHRECV →
        choose true env (some cls) cls.length d
          = ⟨.ret i (errnoOfOut (chrecv true ch ch.sz d).out),
              env.set cl.ch (chrecv true ch ch.sz d).ch,
              (chrecv true ch ch.sz d).evs,
              (chrecv true ch ch.sz d).recvd,
              (chrecv true ch ch.sz d).mods⟩) := by
  have hi : i < cls.length := (List.getElem?_eq_some.mp hget).1
  have hdrop : cls.drop i = cl :: cls.drop (i + 1) := by
    rw [List.drop_eq_getElem_cons hi]
    congr 1
    have := (List.getElem?_eq_some.mp hget).2
    rw [← this]
  constructor
  · intro hop
    have hfs : firesS ch := by
      simp only [firesCl, hch, hop] at hf
      exact hf
    have hfire : chooseLoop env cls 0
        = some (execSend env ch cl.ch i (cl.val.getD [])) := by
      rw [chooseLoop_drop env i cls 0 hpre, hdrop, show 0 + i = i by omega]
      exact chooseLoop_fire_head_send env cl (cls.drop (i + 1)) i ch hch hv hop hfs
    rw [choose_of_loop_some env cls d _ hfire,
      execSend_eq_chsend env ch cl.ch i (cl.val.getD []) d hch hfs]
  · intro hop
    have hfr : firesR ch := by
      simp only [firesCl, hch, hop] at hf
      exact hf
    have hfire : chooseLoop env cls 0 = some (execRecv env ch cl.ch i) := by
      rw [chooseLoop_drop env i cls 0 hpre, hdrop, show 0 + i = i by omega]
      exact chooseLoop_fire_head_recv env cl (cls.drop (i + 1)) i ch hch hv hop hfr
    rw [choose_of_loop_some env cls d _ hfire,
      execRecv_eq_chrecv env ch cl.ch i d hch hfr hI4]

/-- Witness for the amended C6: a single ready send-clause on an empty
buffered channel is executed and its index 0 returned with errno 0. -/
theorem c6_witness :
    choose true [mkChan 1 1] (some [⟨0, ChanOp.CHSEND, some [9], 1⟩]) 1 (-1)
      = ⟨.ret 0 (errnoOfOut (chsend true (mkChan 1 1) [9] 1 (-1)).out),
          [mkChan 1 1].set 0 (chsend true (mkChan 1 1) [9] 1 (-1)).ch,
          (chsend true (mkChan 1 1) [9] 1 (-1)).evs,
          (chsend true (mkChan 1 1) [9] 1 (-1)).recvd,
          (chsend true (mkChan 1 1) [9] 1 (-1)).mods⟩ :=
  (c6_amended_poll_order [mkChan 1 1] [⟨0, ChanOp.CHSEND, some [9], 1⟩] (-1) 0
      ⟨0, ChanOp.CHSEND, some [9], 1⟩ (mkChan 1 1) (by simp) (by simp)
      (fun j hj _ _ => absurd hj (Nat.not_lt_zero j))
      (by decide) (by decide) (by decide)).1 rfl

/-- Claim C10: choose validates before touching any channel and validates
clauses in order: a negative nclauses or a null clause array with nonzero
nclauses returns -1 with EINVAL; the first malformed clause (wrong length,
null payload with positive length, or unknown direction), provided all
earlier clauses are valid and non-triggering, returns its index with EINVAL;
and every EINVAL return leaves the environment unmodified. -/
theorem c10_choose_validation (env : List Chan) (cls : List Chclause) (d : Int) :
    (∀ ncl : Int, ncl < 0 →
        choose true env (some cls) ncl d
          = ⟨.ret (-1) (some EINVAL), env, [], none, []⟩) ∧
    (∀ ncl : Int, ncl ≠ 0 →
        choose true env none ncl d
          = ⟨.ret (-1) (some EINVAL), env, [], none, []⟩) ∧
    (∀ (i : Nat) (cl : Chclause) (ch : Chan), cls[i]? = some cl →
        env[cl.ch]? = some ch →
        (cl.len ≠ ch.sz ∨ (cl.len > 0 ∧ cl.val = none) ∨ cl.op = ChanOp.CHOTHER) →
        (∀ j, j < i → ∀ cl', cls[j]? = some cl' → validCl env cl' ∧ ¬ firesCl env cl') →
        choose true env (some cls) cls.length d
          = ⟨.ret i (some EINVAL), env, [], none, []⟩) ∧
    (∀ (cb : Bool) (clauses : Option (List Chclause)) (ncl rc : Int),
        (choose cb env clauses ncl d).out = .ret rc (some EINVAL) →
        (choose cb env clauses ncl d).env = env) := by
  refine ⟨?_, ?_, ?_, ?_⟩
  · intro ncl hlt
    unfold choose
    rw [if_neg (by simp), if_pos (Or.inl hlt)]
  · intro ncl hne
    unfold choose
    rw [if_neg (by simp), if_pos (Or.inr ⟨hne, rfl⟩)]
  · intro i cl ch hget hch hbad hpre
    have hi : i < cls.length := (List.getElem?_eq_some.mp hget).1
    have hdrop : cls.drop i = cl :: cls.drop (i + 1) := by
      rw [List.drop_eq_getElem_cons hi]
      congr 1
      have := (List.getElem?_eq_some.mp hget).2
      rw [← this]
    have hfire : chooseLoop env cls 0 = some ⟨i, some EINVAL, env, [], none, []⟩ := by
      rw [chooseLoop_drop env i cls 0 hpre, hdrop, show 0 + i = i by omega]
      exact chooseLoop_invalid_head env cl (cls.drop (i + 1)) i ch hch hbad
    rw [choose_of_loop_some env cls d _ hfire]
  · intro cb clauses ncl rc h
    unfold choose at h ⊢
    cases cb with
    | false => simp [ECANCELED, EINVAL] at h
    | true =>
      rw [if_neg (by simp)] at h ⊢
      by_cases hpre : ncl < 0 ∨ (ncl ≠ 0 ∧ clauses = none)
      · rw [if_pos hpre] at h ⊢
      · rw [if_neg hpre] at h ⊢
        cases hl : chooseLoop env ((clauses.getD []).take ncl.toNat) 0 with
        | some r =>
          rw [hl] at h
          have he : r.errnoW = some EINVAL := by
            have h' : ChooseOut.ret (r.idx : Int) r.errnoW = .ret rc (some EINVAL) := h
            injection h' with h1 h2
          exact chooseLoop_einval_env env _ 0 r hl he
        | none =>
          rw [hl] at h
          by_cases hd : d = 0
          · rw [if_pos hd] at h ⊢
          · rw [if_neg hd] at h
            have h' : ChooseOut.parked = ChooseOut.ret rc (some EINVAL) := h
            exact ChooseOut.noConfusion h'

/-- Witness for C10: one malformed clause (length 2 on a byte channel)
returns index 0 with EINVAL and an unchanged environment. -/
theorem c10_witness :
    choose true [mkChan 1 0] (some [⟨0, ChanOp.CHSEND, some [1], 2⟩]) 1 (-1)
      = ⟨.ret 0 (some EINVAL), [mkChan 1 0], [], none, []⟩ :=
  (c10_choose_validation [mkChan 1 0] [⟨0, ChanOp.CHSEND, some [1], 2⟩] (-1)).2.2.1
    0 ⟨0, ChanOp.CHSEND, some [1], 2⟩ (mkChan 1 0) (by simp) (by simp)
    (Or.inl (by decide)) (fun j hj _ _ => absurd hj (Nat.not_lt_zero j))

/-- Witness for C8: a concrete unbuffered channel with one parked receiver. -/
theorem c8_witness :
    (chsend true { sz := 1, bufsz := 0, buf := [], items := 0, first := 0,
                   inW := [⟨[0]⟩], outW := [], done := false } [9] 1 (-1)).out = .ok :=
  (c8_direct_handoff_frame
      { sz := 1, bufsz := 0, buf := [], items := 0, first := 0,
        inW := [⟨[0]⟩], outW := [], done := false } [9] (-1) ⟨[0]⟩ [] rfl rfl).1

end LibdillChan
